import Mathlib

/-!
Verification development for the BSL parsing and caching engine
(`src/solidlsp/bsl_parser.py`, `src/solidlsp/bsl_cache.py`,
`src/solidlsp/language_servers/bsl_language_server.py`).

Strings are shallowly embedded as `List Char`.  Python dictionaries are
embedded as insertion-ordered association lists (Python dicts preserve
insertion order; updating an existing key keeps its position, a new key is
appended at the end).  Python sets of integer indices are embedded as lists
of naturals; where CPython's set iteration order is unspecified we fix one
concrete refinement (documented at the definition).

Modeling notes, applying to the whole file:
* Python's regex class `\s` (and `str.strip`) is modeled by the six ASCII
  whitespace characters; `\w` (and the explicit Cyrillic ranges of the
  source's character classes) is modeled by ASCII alphanumerics, the
  underscore and the Cyrillic letters; `str.lower` is modeled on ASCII and
  Cyrillic letters.  All source texts of interest use only those characters.
* Each compiled regular expression of the source is hand-compiled into a
  deterministic matching function, reproducing the ordered-alternation and
  greedy/backtracking behaviour of the Python `re` engine on that pattern.
-/

/-- Convenience: characters of a string literal. -/
def lc (s : String) : List Char := s.data

/-- Python regex `\s` / `str.strip` whitespace, modeled as ASCII whitespace. -/
def isWs (c : Char) : Bool :=
  c = ' ' || c = '\t' || c = '\n' || c = '\r' || c = '\x0b' || c = '\x0c'

/-- Python regex `\w` (and the source's `[а-яёА-ЯЁ\w]` classes), modeled as
ASCII alphanumerics, underscore and Cyrillic letters. -/
def isWordChar (c : Char) : Bool :=
  ('a' ≤ c && c ≤ 'z') || ('A' ≤ c && c ≤ 'Z') || ('0' ≤ c && c ≤ '9') || c = '_'
    || (0x410 ≤ c.toNat && c.toNat ≤ 0x44F) || c.toNat = 0x401 || c.toNat = 0x451

/-- `str.lower` on one character, modeled on ASCII and Cyrillic. -/
def lowerChar (c : Char) : Char :=
  if 'A' ≤ c && c ≤ 'Z' then Char.ofNat (c.toNat + 32)
  else if 0x410 ≤ c.toNat && c.toNat ≤ 0x42F then Char.ofNat (c.toNat + 32)
  else if c.toNat = 0x401 then Char.ofNat 0x451
  else c

/-- `str.lower` on a string. -/
def lowerStr (s : List Char) : List Char := s.map lowerChar

/-- Case-insensitive character equality (both sides lowered, as the `re`
engine does for `re.IGNORECASE`). -/
def ciEq (a b : Char) : Bool := lowerChar a = lowerChar b

/-- Case-insensitive "starts with". -/
def ciStartsWith : List Char → List Char → Bool
  | [], _ => true
  | _ :: _, [] => false
  | p :: ps, c :: cs => ciEq p c && ciStartsWith ps cs

/-- Case-sensitive substring test, Python's `needle in haystack`. -/
def hasSub (needle : List Char) : List Char → Bool
  | [] => needle.isEmpty
  | c :: cs => needle.isPrefixOf (c :: cs) || hasSub needle cs

/-- Python `str.split(sep)` for a one-character separator. -/
def splitOnCh (sep : Char) : List Char → List (List Char)
  | [] => [[]]
  | c :: cs =>
    if c = sep then [] :: splitOnCh sep cs
    else
      match splitOnCh sep cs with
      | [] => [[c]]
      | l :: ls => (c :: l) :: ls

/-- Number of occurrences of a character. -/
def countCh (ch : Char) (s : List Char) : Nat := (s.filter (· = ch)).length

/-- Python `str.lstrip()`. -/
def lstripWs (s : List Char) : List Char := s.dropWhile (fun c => isWs c)

/-- Python `str.strip()`. -/
def stripWs (s : List Char) : List Char :=
  ((s.dropWhile (fun c => isWs c)).reverse.dropWhile (fun c => isWs c)).reverse

/-- Python `str.find(ch, start)`; `none` for Python's `-1`. -/
def findChFrom (s : List Char) (ch : Char) (start : Nat) : Option Nat :=
  match (s.drop start).findIdx? (· = ch) with
  | some i => some (start + i)
  | none => none

/-- Python slice `s[a:b]` (for `0 ≤ a`, `0 ≤ b`). -/
def pySlice (s : List Char) (a b : Nat) : List Char := ((s.drop a).take (b - a))

/-- Does the element at index `i` satisfy `p` (false out of range)? -/
def getMatches {α : Type} (p : α → Bool) (l : List α) (i : Nat) : Bool :=
  match l.get? i with
  | some a => p a
  | none => false

/-- First value bound to a key in an association list (Python `d[k]` /
`k in d`). -/
def alistLookup {β : Type} (l : List (List Char × β)) (k : List Char) : Option β :=
  match l with
  | [] => none
  | (k', v) :: rest => if k' = k then some v else alistLookup rest k

/-- Python `d[k] = v` on a dict: replace the value of an existing key in
place, otherwise append the new binding at the end. -/
def alistSet {β : Type} (l : List (List Char × β)) (k : List Char) (v : β) :
    List (List Char × β) :=
  match l with
  | [] => [(k, v)]
  | (k', v') :: rest =>
    if k' = k then (k, v) :: rest else (k', v') :: alistSet rest k v

/-- Python `d.pop(k, None)` / `del d[k]`: drop every binding of the key
(at most one exists in states reachable by the code). -/
def alistErase {β : Type} (l : List (List Char × β)) (k : List Char) :
    List (List Char × β) :=
  l.filter (fun kv => kv.1 ≠ k)

/-- `d.get(k, [])` for index dictionaries. -/
def alistLookupD {β : Type} (l : List (List Char × β)) (k : List Char) (d : β) : β :=
  (alistLookup l k).getD d

/-- The idiom `if k not in d: d[k] = []` followed by `d[k].append(x)`. -/
def alistAppend {β : Type} (l : List (List Char × List β)) (k : List Char) (x : β) :
    List (List Char × List β) :=
  match alistLookup l k with
  | some v => alistSet l k (v ++ [x])
  | none => l ++ [(k, [x])]

/-! ## Parser data model (`bsl_parser.py`) -/

/-- Параметр процедуры или функции (`BSLParam`). -/
structure BSLParam where
  name : List Char
  byval : Bool
  default : Option (List Char) := none
deriving DecidableEq

/-- Позиция вызова процедуры/функции в коде (`BSLCallPosition`). -/
structure BSLCallPosition where
  call : List Char
  line : Nat
  character : Nat
deriving DecidableEq

/-- Переменная модуля (`BSLModuleVar`). -/
structure BSLModuleVar where
  name : List Char
  is_export : Bool
  description : List Char := []
deriving DecidableEq

/-- Процедура или функция BSL (`BSLMethod`). -/
structure BSLMethod where
  name : List Char
  line : Nat
  endline : Nat
  isproc : Bool
  is_export : Bool
  params : List BSLParam := []
  description : List Char := []
  context : List Char := []
  calls_position : List BSLCallPosition := []
deriving DecidableEq

/-- Результат парсинга BSL кода (`BSLParseResult`); the `module_vars` dict is
an insertion-ordered association list. -/
structure BSLParseResult where
  methods : List BSLMethod := []
  global_calls : List BSLCallPosition := []
  module_vars : List (List Char × BSLModuleVar) := []
deriving DecidableEq

/-! ## Hand-compiled regular expressions of `BSLParser`

Each Python pattern is compiled by hand into a deterministic matcher that
reproduces the `re` engine's behaviour on it: literals are matched
case-insensitively (`re.IGNORECASE`), alternations are tried left to right,
optional groups try the filled variant first and fall back to empty, and
greedy `\s*`/`\s+` never need to give characters back except at the one
place noted (`matchParamAt`), because everywhere else the character class
that follows is disjoint from whitespace. -/

/-- Length of the whitespace run at the head (`\s*` greedy). -/
def wsRunLen (s : List Char) : Nat := (s.takeWhile (fun c => isWs c)).length

/-- Length of the word-character run at the head (`[а-яёА-ЯЁ\w]+` greedy). -/
def wordRunLen (s : List Char) : Nat := (s.takeWhile (fun c => isWordChar c)).length

/-- Does `pos` sit at the start of a line (`^` under `re.MULTILINE`)? -/
def isLineStart (s : List Char) (pos : Nat) : Bool :=
  pos = 0 || (s.get? (pos - 1) = some '\n')

/-- `finditer` driver: scan positions left to right, emit non-overlapping
matches `(start, payload, end)`, resume after each match's end.  When
`anchored` is set only line-start positions are tried (the pattern begins
with `^` under `re.MULTILINE`); no pattern in this file can match the empty
string, so every match end is beyond its start. -/
def finditerGo {α : Type} (m : List Char → Nat → Option (α × Nat)) (anchored : Bool)
    (s : List Char) : Nat → Nat → List (Nat × α × Nat)
  | 0, _ => []
  | fuel + 1, pos =>
    if pos > s.length then []
    else if anchored && !(isLineStart s pos) then finditerGo m anchored s fuel (pos + 1)
    else
      match m s pos with
      | some (a, e) =>
        (pos, a, e) :: finditerGo m anchored s fuel (if e ≤ pos then pos + 1 else e)
      | none => finditerGo m anchored s fuel (pos + 1)

/-- `pattern.finditer(s)`. -/
def finditerMatches {α : Type} (m : List Char → Nat → Option (α × Nat))
    (anchored : Bool) (s : List Char) : List (Nat × α × Nat) :=
  finditerGo m anchored s (s.length + 1) 0

namespace BSLParser

/-- `(?:Экспорт\s+)?KW\s+([а-яёА-ЯЁ\w]+)\s*\(` continued at `pos`; `kw` is the
lower-cased opening keyword.  Returns the captured name and the match end. -/
def matchDeclCont (kw : List Char) (s : List Char) (pos : Nat) : Option (List Char × Nat) :=
  let tryKw (p : Nat) : Option (List Char × Nat) :=
    if ciStartsWith kw (s.drop p) then
      let p1 := p + kw.length
      let w := wsRunLen (s.drop p1)
      if w = 0 then none
      else
        let p2 := p1 + w
        let n := wordRunLen (s.drop p2)
        if n = 0 then none
        else
          let name := (s.drop p2).take n
          let p3 := p2 + n + wsRunLen (s.drop (p2 + n))
          match s.drop p3 with
          | '(' :: _ => some (name, p3 + 1)
          | _ => none
    else none
  let tryExp : Option (List Char × Nat) :=
    if ciStartsWith (lc "экспорт") (s.drop pos) then
      let p1 := pos + 7
      let w := wsRunLen (s.drop p1)
      if w = 0 then none else tryKw (p1 + w)
    else none
  tryExp <|> tryKw pos

/-- `PROC_PATTERN` / `FUNC_PATTERN` tried at `pos` (the `^` anchor is enforced
by the caller): `^\s*(?:&НаСервере|&НаКлиенте|&НаСервереБезКонтекста)?\s*`
followed by `matchDeclCont`.  The alternation is tried in source order and
falls back on downstream failure, as the `re` engine does. -/
def matchDeclAt (kw : List Char) (s : List Char) (pos : Nat) : Option (List Char × Nat) :=
  let p1 := pos + wsRunLen (s.drop pos)
  let tryCtx (ctx : List Char) : Option (List Char × Nat) :=
    if ciStartsWith ctx (s.drop p1) then
      let p2 := p1 + ctx.length
      matchDeclCont kw s (p2 + wsRunLen (s.drop p2))
    else none
  tryCtx (lc "&насервере") <|> tryCtx (lc "&наклиенте")
    <|> tryCtx (lc "&насерверебезконтекста") <|> matchDeclCont kw s p1

/-- `PROC_END_PATTERN` / `FUNC_END_PATTERN` searched in a single line (the
line holds no newline, so `^` only fits position 0): `^\s*<closing keyword>`,
case-insensitively. -/
def endLineSearch (end_kw : List Char) (line : List Char) : Bool :=
  ciStartsWith end_kw (line.drop (wsRunLen line))

/-- `CONTEXT_PATTERN.search(line)`: first `&` whose suffix starts with one of
the alternatives (tried in source order; `НаСервере` shadows
`НаСервереБезКонтекста` because it is a prefix of it and nothing follows the
group).  Returns the captured text in its original case. -/
def ctxSearchGo (line : List Char) : Nat → Nat → Option (List Char)
  | 0, _ => none
  | fuel + 1, pos =>
    match line.drop pos with
    | [] => none
    | '&' :: rest =>
      if ciStartsWith (lc "насервере") rest then some (rest.take 9)
      else if ciStartsWith (lc "наклиенте") rest then some (rest.take 9)
      else if ciStartsWith (lc "насерверебезконтекста") rest then some (rest.take 21)
      else ctxSearchGo line fuel (pos + 1)
    | _ :: _ => ctxSearchGo line fuel (pos + 1)

/-- `EXPORT_PATTERN.search(line)`: `\bЭкспорт\b`, case-insensitively.  A word
boundary holds where a word character is not adjacent to another word
character; out-of-range neighbours count as non-word. -/
def exportSearchGo (line : List Char) : Nat → Nat → Bool
  | 0, _ => false
  | fuel + 1, pos =>
    if pos > line.length then false
    else
      let okL := pos = 0 || !(isWordChar (((line.get? (pos - 1))).getD ' '))
      let okR := !(isWordChar (((line.get? (pos + 7))).getD ' '))
      if okL && ciStartsWith (lc "экспорт") (line.drop pos) && okR then true
      else exportSearchGo line fuel (pos + 1)

/-- `bool(EXPORT_PATTERN.search(line))`. -/
def hasExportKw (line : List Char) : Bool := exportSearchGo line (line.length + 1) 0

/-- `MODULE_VAR_PATTERN` tried at a line-start position:
`^\s*Перем\s+([а-яёА-ЯЁ\w]+)(?:\s+Экспорт)?\s*;`.  The optional export group
is tried filled first (including the terminating `\s*;`) and falls back to
empty on failure. -/
def matchVarAt (s : List Char) (pos : Nat) : Option (List Char × Nat) :=
  let p1 := pos + wsRunLen (s.drop pos)
  if ciStartsWith (lc "перем") (s.drop p1) then
    let p2 := p1 + 5
    let w := wsRunLen (s.drop p2)
    if w = 0 then none
    else
      let p3 := p2 + w
      let n := wordRunLen (s.drop p3)
      if n = 0 then none
      else
        let name := (s.drop p3).take n
        let p4 := p3 + n
        let tryExp : Option Nat :=
          let w3 := wsRunLen (s.drop p4)
          if w3 = 0 then none
          else
            let p5 := p4 + w3
            if ciStartsWith (lc "экспорт") (s.drop p5) then
              let p6 := p5 + 7 + wsRunLen (s.drop (p5 + 7))
              match s.drop p6 with
              | ';' :: _ => some (p6 + 1)
              | _ => none
            else none
        match tryExp with
        | some e => some (name, e)
        | none =>
          let p5 := p4 + wsRunLen (s.drop p4)
          match s.drop p5 with
          | ';' :: _ => some (name, p5 + 1)
          | _ => none
  else none

/-- One `PARAM_PATTERN` group-1-and-rest attempt starting at the name:
`([а-яёА-ЯЁ\w]+)(?:\s*=\s*([^,)]+))?`.  The one real backtrack of the file
lives here: when `\s*` after `=` swallows all the whitespace and `[^,)]+`
then finds nothing, the engine gives one whitespace character back, which
`[^,)]+` accepts. -/
def matchParamName (s : List Char) (pos : Nat) :
    Option ((List Char × Option (List Char)) × Nat) :=
  let n := wordRunLen (s.drop pos)
  if n = 0 then none
  else
    let name := (s.drop pos).take n
    let p2 := pos + n
    let tryDef : Option (List Char × Nat) :=
      let w := wsRunLen (s.drop p2)
      match s.drop (p2 + w) with
      | '=' :: _ =>
        let q := p2 + w + 1
        let w2 := wsRunLen (s.drop q)
        let r := (s.drop (q + w2)).takeWhile (fun c => c ≠ ',' && c ≠ ')')
        if r ≠ [] then some (r, q + w2 + r.length)
        else if w2 ≠ 0 then
          let r' := (s.drop (q + w2 - 1)).takeWhile (fun c => c ≠ ',' && c ≠ ')')
          some (r', q + w2 - 1 + r'.length)
        else none
      | _ => none
    match tryDef with
    | some (d, e) => some ((name, some d), e)
    | none => some ((name, none), p2)

/-- `PARAM_PATTERN` tried at `pos`: `(?:Знач\s+)?` then `matchParamName`. -/
def matchParamAt (s : List Char) (pos : Nat) :
    Option ((List Char × Option (List Char)) × Nat) :=
  let tryZnach : Option ((List Char × Option (List Char)) × Nat) :=
    if ciStartsWith (lc "знач") (s.drop pos) then
      let p1 := pos + 4
      let w := wsRunLen (s.drop p1)
      if w = 0 then none else matchParamName s (p1 + w)
    else none
  tryZnach <|> matchParamName s pos

/-- `CALL_PATTERN` tried at `pos`: `\b([а-яёА-ЯЁ\w]+)\s*\(`. -/
def matchCallAt (line : List Char) (pos : Nat) : Option (List Char × Nat) :=
  let okL := pos = 0 || !(isWordChar (((line.get? (pos - 1))).getD ' '))
  if !okL then none
  else
    let n := wordRunLen (line.drop pos)
    if n = 0 then none
    else
      let name := (line.drop pos).take n
      let p2 := pos + n + wsRunLen (line.drop (pos + n))
      match line.drop p2 with
      | '(' :: _ => some (name, p2 + 1)
      | _ => none

end BSLParser

namespace BSLParser

/-- `KEYWORDS`: ключевые слова, которые не являются вызовами. -/
def KEYWORDS : List (List Char) :=
  [lc "если", lc "иначе", lc "иначеесли", lc "конецесли", lc "пока", lc "конеццикла",
   lc "для", lc "каждого", lc "из", lc "цикл", lc "процедура", lc "функция",
   lc "конецпроцедуры", lc "конецфункции", lc "возврат", lc "прервать",
   lc "продолжить", lc "попытка", lc "исключение", lc "вызватьисключение",
   lc "новый", lc "тип", lc "типзнч", lc "неопределено", lc "истина", lc "ложь",
   lc "сообщить", lc "сообщениепользователю", lc "пустаястрока", lc "стршаблон",
   lc "насервере", lc "наклиенте", lc "насерверебезконтекста", lc "экспорт",
   lc "знач", lc "перем", lc "конецобласти", lc "область"]

/-- Python `str.find(sub)` for a substring; `none` for `-1`. -/
def findSubGo (s needle : List Char) : Nat → Nat → Option Nat
  | 0, _ => none
  | fuel + 1, pos =>
    if pos > s.length then none
    else if needle.isPrefixOf (s.drop pos) then some pos
    else findSubGo s needle fuel (pos + 1)

/-- `s.find(needle)`. -/
def findSub (s needle : List Char) : Option Nat := findSubGo s needle (s.length + 1) 0

/-- Body of the collection loop of `_extract_description_before`, iterating
the window's line numbers in ascending order with the accumulated comment
lines (a `break` returns the accumulator as is). -/
def descLoop (lines : List (List Char)) : List Nat → List (List Char) → List (List Char)
  | [], acc => acc
  | i :: rest, acc =>
    let line := stripWs ((lines.get? i).getD [])
    if acc.isEmpty && line.isEmpty then descLoop lines rest acc
    else if (lc "//").isPrefixOf line then descLoop lines rest (acc ++ [stripWs (line.drop 2)])
    else if hasSub (lc "/*") line then
      if hasSub (lc "*/") line then
        let a := (findSub line (lc "/*")).getD 0
        let b := (findSub line (lc "*/")).getD 0
        let comment := stripWs (pySlice line (a + 2) b)
        if comment.isEmpty then descLoop lines rest acc
        else descLoop lines rest (acc ++ [comment])
      else descLoop lines rest acc
    else if line.isEmpty then descLoop lines rest acc
    else acc

/-- `BSLParser._extract_description_before`: collect comment lines from the
window of up to 20 lines before `line_num` (iterated in ascending order,
skipping leading blanks, stopping at the first non-blank non-comment line),
then reverse the collected lines, join them with newlines and strip. -/
def _extract_description_before (lines : List (List Char)) (line_num : Nat) : List Char :=
  let idxs := (List.range line_num).drop (line_num - 20)
  let description_lines := descLoop lines idxs []
  stripWs (List.intercalate (lc "\n") description_lines.reverse)

/-- The `BSLModuleVar` built from one `MODULE_VAR_PATTERN` match inside
`_parse_module_vars`: the export flag is a case-sensitive substring test of
the matched text `match.group(0)`. -/
def moduleVarOf (source : List Char) (lines : List (List Char))
    (m : Nat × List Char × Nat) : BSLModuleVar :=
  let var_line := countCh '\n' (source.take m.1)
  let var_text := pySlice source m.1 m.2.2
  let is_export := hasSub (lc "Экспорт") var_text || hasSub (lc "экспорт") var_text
  { name := m.2.1, is_export := is_export,
    description := _extract_description_before lines var_line }

/-- `BSLParser._parse_module_vars`: every `MODULE_VAR_PATTERN` match becomes
a `BSLModuleVar` keyed by its name (later matches overwrite earlier ones, as
in a Python dict). -/
def _parse_module_vars (source : List Char) (lines : List (List Char)) :
    List (List Char × BSLModuleVar) :=
  (finditerMatches matchVarAt true source).foldl
    (fun vars_dict m => alistSet vars_dict m.2.1 (moduleVarOf source lines m)) []

/-- `BSLParser._extract_context`: normalize the captured context annotation. -/
def _extract_context (line : List Char) : List Char :=
  match ctxSearchGo line line.length 0 with
  | some context =>
    if lowerStr context = lc "насервере" then lc "НаСервере"
    else if lowerStr context = lc "наклиенте" then lc "НаКлиенте"
    else if lowerStr context = lc "насерверебезконтекста" then lc "НаСервереБезКонтекста"
    else []
  | none => []

/-- The resynchronization loop of `_parse_method_from_match`: the first
offset in `0, 1, 2` whose line exists, contains the method name and a
(case-sensitive) `Процедура` or `Функция`; otherwise the line stays put. -/
def resyncLine (lines : List (List Char)) (method_name : List Char) (start_line : Nat) : Nat :=
  match (List.range 3).find? (fun offset =>
      match lines.get? (start_line + offset) with
      | some line_text =>
        hasSub method_name line_text &&
          ((hasSub (lc "Процедура") line_text || hasSub (lc "Функция") line_text)
            && hasSub method_name line_text)
      | none => false) with
  | some offset => start_line + offset
  | none => start_line

/-- `BSLParser._extract_params`. -/
def _extract_params (source : List Char) (start_pos : Nat) (lines : List (List Char))
    (start_line : Nat) : List BSLParam :=
  let declaration_line := (lines.get? start_line).getD []
  match findChFrom declaration_line '(' 0 with
  | none => []
  | some paren_start =>
    let params_text? : Option (List Char) :=
      match findChFrom declaration_line ')' (paren_start + 1) with
      | some paren_end => some (pySlice declaration_line (paren_start + 1) paren_end)
      | none =>
        let search_start := start_pos + paren_start + 1
        match findChFrom source ')' search_start with
        | none => none
        | some paren_end_pos => some (pySlice source search_start paren_end_pos)
    match params_text? with
    | none => []
    | some params_text =>
      if (stripWs params_text).isEmpty then []
      else
        (finditerMatches matchParamAt false params_text).map (fun m =>
          let g0 := pySlice params_text m.1 m.2.2
          let byval := hasSub (lc "Знач") g0 || hasSub (lc "знач") g0
          { name := m.2.1.1, byval := byval, default := m.2.1.2.map stripWs })

/-- The scan loop of `_find_method_end`: from line `i` onward, an unindented
procedure/function opening increments the depth (the anchored search always
starts at position 0, so the source's `match_pos` test succeeds exactly when
the line has no leading whitespace); a closing keyword decrements it and at
depth 0 yields that line.  The structural fuel argument covers the whole
remaining line range (one unit per scanned line), so it never expires
before `i` leaves the list. -/
def findEndLoop (lines : List (List Char)) (end_kw : List Char) :
    Nat → Nat → Int → Option Nat
  | 0, _, _ => none
  | fuel + 1, i, depth =>
    if h : i < lines.length then
      let line := lines.get ⟨i, h⟩
      if (matchDeclAt (lc "процедура") line 0).isSome
          || (matchDeclAt (lc "функция") line 0).isSome then
        if 0 = line.length - (lstripWs line).length then
          findEndLoop lines end_kw fuel (i + 1) (depth + 1)
        else findEndLoop lines end_kw fuel (i + 1) depth
      else if endLineSearch end_kw line then
        if depth - 1 = 0 then some i
        else findEndLoop lines end_kw fuel (i + 1) (depth - 1)
      else findEndLoop lines end_kw fuel (i + 1) depth
    else none

/-- `BSLParser._find_method_end`. -/
def _find_method_end (source : List Char) (start_line : Nat) (is_proc : Bool) :
    Option Nat :=
  let lines := splitOnCh '\n' source
  findEndLoop lines (if is_proc then lc "конецпроцедуры" else lc "конецфункции")
    (lines.length + 1) (start_line + 1) 1

/-- `BSLParser._parse_method_from_match`. -/
def _parse_method_from_match (source : List Char) (lines : List (List Char))
    (matchStart : Nat) (method_name : List Char) (is_proc : Bool) : Option BSLMethod :=
  let start_line := resyncLine lines method_name (countCh '\n' (source.take matchStart))
  let declaration_line := (lines.get? start_line).getD []
  let context := _extract_context declaration_line
  let is_export := hasExportKw declaration_line
  let params := _extract_params source matchStart lines start_line
  match _find_method_end source start_line is_proc with
  | none => none
  | some end_line =>
    some { name := method_name, line := start_line, endline := end_line,
           isproc := is_proc, is_export := is_export, params := params,
           description := _extract_description_before lines start_line,
           context := context, calls_position := [] }

/-- Stable insertion step of `methods.sort(key=lambda m: m.line)`. -/
def insertByLine (m : BSLMethod) : List BSLMethod → List BSLMethod
  | [] => [m]
  | x :: xs => if m.line < x.line then m :: x :: xs else x :: insertByLine m xs

/-- Stable sort by start line (Python `list.sort` is stable; inserting each
element after all entries with a key not above its own preserves the source
order of equal keys). -/
def sortByLine (l : List BSLMethod) : List BSLMethod :=
  l.foldl (fun acc m => insertByLine m acc) []

/-- `BSLParser._parse_methods`: all procedure matches, then all function
matches, each turned into a method where possible, sorted by start line. -/
def _parse_methods (source : List Char) (lines : List (List Char)) : List BSLMethod :=
  let procs := (finditerMatches (matchDeclAt (lc "процедура")) true source).filterMap
    (fun m => _parse_method_from_match source lines m.1 m.2.1 true)
  let funcs := (finditerMatches (matchDeclAt (lc "функция")) true source).filterMap
    (fun m => _parse_method_from_match source lines m.1 m.2.1 false)
  sortByLine (procs ++ funcs)

/-- `BSLParser._parse_global_calls`: calls on lines outside every method's
line range, keywords excluded. -/
def _parse_global_calls (lines : List (List Char)) (methods : List BSLMethod) :
    List BSLCallPosition :=
  lines.enum.flatMap (fun p =>
    if methods.any (fun m => m.line ≤ p.1 && p.1 ≤ m.endline) then []
    else
      (finditerMatches matchCallAt false p.2).filterMap (fun m =>
        if lowerStr m.2.1 ∈ KEYWORDS then none
        else some { call := m.2.1, line := p.1, character := m.1 }))

/-- `BSLParser._parse_method_calls`: calls on the method's own lines,
keywords and self-recursion excluded. -/
def _parse_method_calls (lines : List (List Char)) (method : BSLMethod) :
    List BSLCallPosition :=
  let method_lines := (lines.drop method.line).take (method.endline + 1 - method.line)
  method_lines.enum.flatMap (fun p =>
    (finditerMatches matchCallAt false p.2).filterMap (fun m =>
      if lowerStr m.2.1 ∈ KEYWORDS then none
      else if m.2.1 = method.name then none
      else some { call := m.2.1, line := method.line + p.1, character := m.1 }))

/-- `BSLParser.parse`: module variables, then methods, then module-level
calls, then each method's own call list. -/
def parse (source : List Char) : BSLParseResult :=
  let lines := splitOnCh '\n' source
  let module_vars := _parse_module_vars source lines
  let methods0 := _parse_methods source lines
  let global_calls := _parse_global_calls lines methods0
  let methods := methods0.map (fun m =>
    { m with calls_position := _parse_method_calls lines m })
  { methods := methods, global_calls := global_calls, module_vars := module_vars }

end BSLParser

/-! ## Symbol cache data model (`bsl_cache.py`) -/

/-- Информация о вызове процедуры/функции (`BSLCallInfo`). -/
structure BSLCallInfo where
  filename : List Char
  call : List Char
  line : Nat
  character : Nat
  method_name : List Char
  module : List Char := []
deriving DecidableEq

/-- Метаданные модуля (`BSLModuleInfo`). -/
structure BSLModuleInfo where
  filename : List Char
  module : List Char
  type : List Char := []
  parenttype : List Char := []
  project : List Char := []
deriving DecidableEq

/-- Информация о методе с контекстом файла (`BSLMethodInfo`). -/
structure BSLMethodInfo where
  method : BSLMethod
  filename : List Char
  module : List Char := []
deriving DecidableEq

/-- In-memory база данных для кеша BSL символов (`BSLCache`).  The three
dictionaries are insertion-ordered association lists; the leading
underscores of the index fields are dropped. -/
structure BSLCache where
  methods : List BSLMethodInfo
  module_vars : List (List Char × List BSLModuleVar)
  calls : List (List Char × List BSLCallInfo)
  modules : List BSLModuleInfo
  method_name_index : List (List Char × List Nat)
  method_module_index : List (List Char × List Nat)
  method_export_index : List Nat
deriving DecidableEq

namespace BSLCache

/-- `BSLCache.__init__`. -/
def init : BSLCache :=
  { methods := [], module_vars := [], calls := [], modules := [],
    method_name_index := [], method_module_index := [], method_export_index := [] }

/-- `BSLCache.add_method`. -/
def add_method (c : BSLCache) (method : BSLMethod) (filename : List Char)
    (module : List Char := []) : BSLCache :=
  let index := c.methods.length
  { c with
    methods := c.methods ++ [{ method := method, filename := filename, module := module }],
    method_name_index := alistAppend c.method_name_index (lowerStr method.name) index,
    method_module_index :=
      if module ≠ [] then alistAppend c.method_module_index (lowerStr module) index
      else c.method_module_index,
    method_export_index :=
      if method.is_export then c.method_export_index ++ [index]
      else c.method_export_index }

/-- `BSLCache.add_module_var`. -/
def add_module_var (c : BSLCache) (var : BSLModuleVar) (filename : List Char) : BSLCache :=
  { c with module_vars := alistAppend c.module_vars filename var }

/-- `BSLCache.add_call`. -/
def add_call (c : BSLCache) (call : BSLCallPosition) (filename : List Char)
    (method_name : List Char) (module : List Char := []) : BSLCache :=
  let call_info : BSLCallInfo :=
    { filename := filename, call := call.call, line := call.line,
      character := call.character, method_name := method_name, module := module }
  { c with calls := alistAppend c.calls call.call call_info }

/-- `BSLCache.add_methods_batch`. -/
def add_methods_batch (c : BSLCache)
    (methods_data : List (BSLMethod × List Char × List Char)) : BSLCache :=
  methods_data.foldl (fun acc t => acc.add_method t.1 t.2.1 t.2.2) c

/-- `BSLCache.add_module_vars_batch`. -/
def add_module_vars_batch (c : BSLCache)
    (vars_data : List (BSLModuleVar × List Char)) : BSLCache :=
  vars_data.foldl (fun acc t => acc.add_module_var t.1 t.2) c

/-- `BSLCache.add_calls_batch`. -/
def add_calls_batch (c : BSLCache)
    (calls_data : List (BSLCallPosition × List Char × List Char × List Char)) : BSLCache :=
  calls_data.foldl (fun acc t => acc.add_call t.1 t.2.1 t.2.2.1 t.2.2.2) c

/-- `BSLCache.add_module`. -/
def add_module (c : BSLCache) (module_info : BSLModuleInfo) : BSLCache :=
  { c with modules := c.modules ++ [module_info] }

end BSLCache

/-- A value of the loosely-typed query dictionary of `BSLCache.find_methods`:
a plain string, a boolean, or a `\x7b'$regex': pattern\x7d` dictionary — the
compiled case-insensitive pattern is abstracted into its match predicate. -/
inductive QueryVal : Type
  | str (s : List Char)
  | bool (b : Bool)
  | regex (test : List Char → Bool)

/-- A query dictionary: keys with loosely-typed values. -/
abbrev QueryDict : Type := List (List Char × QueryVal)

/-- Python truthiness of a query value (`if is_export:`): a nonempty string,
`True`, or the (never empty) regex dictionary. -/
def QueryVal.truthy : QueryVal → Bool
  | .str s => !s.isEmpty
  | .bool b => b
  | .regex _ => true

/-- Python `str(x).lower()` on a query value as `find_methods` applies it to
non-dict name/module filters. -/
def QueryVal.asLowerStr : QueryVal → List Char
  | .str s => lowerStr s
  | .bool b => if b then lc "true" else lc "false"
  | .regex _ => []

/-- Python `method.context != query['context']` (negated): a string value
compares by content, any other value never equals a string. -/
def QueryVal.eqStr : QueryVal → List Char → Bool
  | .str s, t => s = t
  | _, _ => false

/-- Python `method.isproc != query['isproc']` (negated): a boolean value
compares by content, any other value never equals a boolean. -/
def QueryVal.eqBool : QueryVal → Bool → Bool
  | .bool b, b' => b = b'
  | _, _ => false

namespace BSLCache

/-- Candidate-index sets of `find_methods` are CPython sets of small
naturals; their unspecified iteration order is fixed here as ascending.
Intersection and difference keep the left operand's order; union
concatenates the new elements of the right operand. -/
def setInter (a b : List Nat) : List Nat := a.filter (fun i => i ∈ b)

/-- Set difference on candidate-index sets. -/
def setDiff (a b : List Nat) : List Nat := a.filter (fun i => i ∉ b)

/-- Set union on candidate-index sets (`set.update`). -/
def setUnion (a b : List Nat) : List Nat := a ++ b.filter (fun i => i ∉ a)

/-- The name/module filter step shared by both indexed filters of
`find_methods`: an exact value looks its lower-cased text up in the index, a
regex value unions the buckets of every index key the pattern matches. -/
def indexFilter (index : List (List Char × List Nat)) (v : QueryVal)
    (cand : Option (List Nat)) : Option (List Nat) :=
  let indices :=
    match v with
    | .regex m => index.foldl (fun acc kv => if m kv.1 then setUnion acc kv.2 else acc) []
    | _ => alistLookupD index v.asLowerStr []
  match cand with
  | some c => some (setInter c indices)
  | none => some indices

/-- The non-indexed per-entry filters at the tail of `find_methods`: the
`context` and `isproc` criteria checked against the candidate entry itself. -/
def methodPasses (q : QueryDict) (method_info : BSLMethodInfo) : Bool :=
  (match alistLookup q (lc "context") with
   | some v => v.eqStr method_info.method.context
   | none => true)
    && (match alistLookup q (lc "isproc") with
        | some v => v.eqBool method_info.method.isproc
        | none => true)

/-- `BSLCache.find_methods`.  `none` models Python's `query=None`. -/
def find_methods (c : BSLCache) (query : Option QueryDict) : List BSLMethodInfo :=
  match query with
  | none => c.methods
  | some q =>
    if q.isEmpty then c.methods
    else
      let cand0 : Option (List Nat) := none
      let cand1 :=
        match alistLookup q (lc "name") with
        | some v => indexFilter c.method_name_index v cand0
        | none => cand0
      let cand2 :=
        match alistLookup q (lc "module") with
        | some v => indexFilter c.method_module_index v cand1
        | none => cand1
      let cand3 :=
        match alistLookup q (lc "is_export"), alistLookup q (lc "isExport") with
        | none, none => cand2
        | v1, v2 =>
          let is_export := ((v1.getD (v2.getD (.bool false))).truthy)
          let export_indices := c.method_export_index
          match cand2 with
          | some cs =>
            if is_export then some (setInter cs export_indices)
            else some (setDiff cs export_indices)
          | none =>
            if is_export then some export_indices
            else some (setDiff (List.range c.methods.length) export_indices)
      let candidate_indices := cand3.getD (List.range c.methods.length)
      candidate_indices.filterMap (fun idx =>
        match c.methods.get? idx with
        | none => none
        | some method_info =>
          if methodPasses q method_info then some method_info else none)

/-- `BSLCache.find_calls`. -/
def find_calls (c : BSLCache) (call_name : List Char) : List BSLCallInfo :=
  alistLookupD c.calls call_name []

/-- `BSLCache.find_methods_by_module`. -/
def find_methods_by_module (c : BSLCache) (module : List Char) : List BSLMethodInfo :=
  c.find_methods (some [(lc "module", .str module)])

/-- `BSLCache.find_exported_methods`. -/
def find_exported_methods (c : BSLCache) (module : Option (List Char) := none) :
    List BSLMethodInfo :=
  match module with
  | some m =>
    if m ≠ [] then
      c.find_methods (some [(lc "is_export", .bool true), (lc "module", .str m)])
    else c.find_methods (some [(lc "is_export", .bool true)])
  | none => c.find_methods (some [(lc "is_export", .bool true)])

/-- `BSLCache.clear`. -/
def clear (_c : BSLCache) : BSLCache := init

/-- The index-rebuild step of `BSLCache._rebuild_indices` for one enumerated
method entry. -/
def rebuildStep (acc : List (List Char × List Nat) × List (List Char × List Nat) × List Nat)
    (p : Nat × BSLMethodInfo) :
    List (List Char × List Nat) × List (List Char × List Nat) × List Nat :=
  let nameIdx := alistAppend acc.1 (lowerStr p.2.method.name) p.1
  let moduleIdx :=
    if p.2.module ≠ [] then alistAppend acc.2.1 (lowerStr p.2.module) p.1 else acc.2.1
  let exportIdx := if p.2.method.is_export then acc.2.2 ++ [p.1] else acc.2.2
  (nameIdx, moduleIdx, exportIdx)

/-- `BSLCache._rebuild_indices`: clear the three indexes and re-derive them
from the method list. -/
def _rebuild_indices (c : BSLCache) : BSLCache :=
  let built := c.methods.enum.foldl rebuildStep ([], [], [])
  { c with method_name_index := built.1, method_module_index := built.2.1,
           method_export_index := built.2.2 }

/-- The descending index list of `remove_file_data` ("начиная с конца"):
the in-range indices whose entry belongs to the file, largest first. -/
def indicesToRemove (methods : List BSLMethodInfo) (filename : List Char) : List Nat :=
  ((List.range methods.length).filter
    (getMatches (fun mi => decide (mi.filename = filename)) methods)).reverse

/-- `BSLCache.remove_file_data`: pop the file's method entries from the back,
rebuild all indexes, drop the file's variable collection, filter the file's
calls out of every callee bucket (dropping buckets that become empty) and
filter its module records. -/
def remove_file_data (c : BSLCache) (filename : List Char) : BSLCache :=
  let methods' := (indicesToRemove c.methods filename).foldl
    (fun acc idx => acc.eraseIdx idx) c.methods
  let c1 := _rebuild_indices { c with methods := methods' }
  let module_vars' := alistErase c1.module_vars filename
  let calls' := (c1.calls.map (fun kv =>
      (kv.1, kv.2.filter (fun call => call.filename ≠ filename)))).filter
    (fun kv => !kv.2.isEmpty)
  let modules' := c1.modules.filter (fun module => module.filename ≠ filename)
  { c1 with module_vars := module_vars', calls := calls', modules := modules' }

/-- `BSLCache.get_stats` as a record with the dictionary's six keys. -/
structure Stats where
  methods : Nat
  exported_methods : Nat
  module_vars : Nat
  calls : Nat
  unique_calls : Nat
  modules : Nat
deriving DecidableEq

/-- `BSLCache.get_stats`. -/
def get_stats (c : BSLCache) : Stats :=
  { methods := c.methods.length,
    exported_methods := c.method_export_index.length,
    module_vars := (c.module_vars.map (fun kv => kv.2.length)).sum,
    calls := (c.calls.map (fun kv => kv.2.length)).sum,
    unique_calls := c.calls.length,
    modules := c.modules.length }

end BSLCache

/-! ## Language server pieces (`bsl_language_server.py`)

Only the members the claims touch are embedded: module-name derivation, the
single-file document-symbol projection, local single-file parsing and cache
invalidation.  The file system is a map from absolute path to file content;
logging is dropped; `hashlib.md5(...).hexdigest()` is modeled as the
identity on the normalized text — the code uses digests only as opaque
tokens compared for equality, and the model preserves exactly the
equalities the code relies on (equal texts give equal digests). -/

/-- Python `path.endswith(("\\", "/"))`. -/
def endsWithSep (s : List Char) : Bool :=
  match s.reverse with
  | c :: _ => c = '/' || c = '\\'
  | [] => false

/-- `os.path.join` for a relative second component on a posix system. -/
def osPathJoin (a b : List Char) : List Char :=
  if endsWithSep a then a ++ b else a ++ lc "/" ++ b

/-- First pass of the line-ending normalization: `replace("\r\n", "\n")`. -/
def replaceCrLf : List Char → List Char
  | [] => []
  | '\r' :: '\n' :: rest => '\n' :: replaceCrLf rest
  | c :: rest => c :: replaceCrLf rest

/-- `source.replace("\r\n", "\n").replace("\r", "\n")`. -/
def normalizeNewlines (s : List Char) : List Char :=
  (replaceCrLf s).map (fun c => if c = '\r' then '\n' else c)

/-- The MD5 hex digest, modeled as the identity on the hashed text (see the
section comment). -/
def contentHash (s : List Char) : List Char := s

namespace BSLServer

/-- The fixed container-type lookup table of `_get_module_for_path`
(`type_mapping`). -/
def type_mapping : List (List Char × List Char) :=
  [(lc "Documents", lc "Документы"), (lc "Catalogs", lc "Справочники"),
   (lc "InformationRegisters", lc "РегистрыСведений"),
   (lc "AccumulationRegisters", lc "РегистрыНакопления"),
   (lc "Enums", lc "Перечисления"), (lc "Constants", lc "Константы"),
   (lc "CommonCommands", lc "ОбщиеКоманды"), (lc "WebServices", lc "ВебСервисы"),
   (lc "BusinessProcesses", lc "БизнесПроцессы"), (lc "Tasks", lc "Задачи")]

/-- `BSLLanguageServer._get_module_for_path`.  Every operation in the source
body is total, so its `except` arm is unreachable and not modeled. -/
def _get_module_for_path (fullpath root_path : List Char) : List Char :=
  let rel_path :=
    if endsWithSep root_path then fullpath.drop root_path.length
    else fullpath.drop (root_path.length + 1)
  let parts := splitOnCh '/' (rel_path.map (fun c => if c = '\\' then '/' else c))
  let hierarchy := parts.length
  if hierarchy > 3 then
    let parent_type := parts.getD (hierarchy - 4) []
    if (lc "CommonModules").isPrefixOf parent_type
        || (lc "ОбщиеМодули").isPrefixOf parent_type then
      parts.getD (hierarchy - 3) []
    else
      let mapped_type := (alistLookup type_mapping parent_type).getD parent_type
      mapped_type ++ lc "." ++ parts.getD (hierarchy - 3) []
  else []

/-- One projected symbol (`ls_types.UnifiedSymbolInformation`) as
`_convert_single_file_to_document_symbols` builds it: `range`,
`selectionRange` and `location.range` are the same four coordinates and are
stored once; `children` is always empty and omitted; the `pathlib` URI is
modeled as the absolute path behind a `file://` scheme (percent-encoding is
inert data for the claims). -/
structure UnifiedSymbolInformation where
  name : List Char
  kind : Nat
  uri : List Char
  absolutePath : List Char
  relativePath : List Char
  startLine : Nat
  startChar : Nat
  endLine : Nat
  endChar : Nat
  body : List Char
  detail : Option (List Char)
  description : Option (List Char)
deriving DecidableEq

/-- The mutable language-server state the embedded members touch:
the local symbol cache, the two document-symbol caches (path → (hash,
payload)), the file-content cache and the converted-files set. -/
structure ServerState where
  local_cache : BSLCache
  document_symbols_cache : List (List Char × (List Char × List UnifiedSymbolInformation))
  raw_document_symbols_cache : List (List Char × (List Char × Option Unit))
  file_content_cache : List (List Char × List Char)
  converted_files : List (List Char)
deriving DecidableEq

/-- `BSLLanguageServer._extract_method_body`. -/
def _extract_method_body (file_content : List Char) (method : BSLMethod) : List Char :=
  let lines := splitOnCh '\n' file_content
  let start_line := method.line
  let end_line :=
    if method.endline < lines.length then min method.endline (lines.length - 1)
    else lines.length - 1
  if start_line > end_line || start_line ≥ lines.length then []
  else List.intercalate (lc "\n") ((lines.drop start_line).take (end_line + 1 - start_line))

/-- The per-method symbol construction of
`_convert_single_file_to_document_symbols`. -/
def methodToSymbol (abs_path relative_file_path file_content : List Char)
    (lines : List (List Char)) (method : BSLMethod) : UnifiedSymbolInformation :=
  let kind := if !method.isproc then 12 else 6
  let start_line := method.line
  let end_line :=
    if method.endline < lines.length then min method.endline (lines.length - 1)
    else lines.length - 1
  let start_char :=
    match lines.get? start_line with
    | some method_line => (BSLParser.findSub method_line method.name).getD 0
    | none => 0
  let end_char := match lines.get? end_line with
    | some l => l.length
    | none => 0
  let detail_parts :=
    (if method.context ≠ [] then [method.context] else [])
      ++ (if method.is_export then [lc "Экспорт"] else [])
  { name := method.name, kind := kind,
    uri := lc "file://" ++ abs_path,
    absolutePath := abs_path, relativePath := relative_file_path,
    startLine := start_line, startChar := start_char,
    endLine := end_line, endChar := end_char,
    body := _extract_method_body file_content method,
    detail := if detail_parts.isEmpty then none
              else some (List.intercalate (lc " | ") detail_parts),
    description := if method.description.isEmpty then none else some method.description }

/-- `BSLLanguageServer._convert_single_file_to_document_symbols` (its unused
`module` parameter is dropped). -/
def _convert_single_file_to_document_symbols (st : ServerState)
    (relative_file_path abs_path file_content file_hash : List Char)
    (methods : List BSLMethod) : ServerState :=
  if methods.isEmpty then
    { st with
      document_symbols_cache :=
        alistSet st.document_symbols_cache relative_file_path (file_hash, []),
      raw_document_symbols_cache :=
        alistSet st.raw_document_symbols_cache relative_file_path (file_hash, none) }
  else
    let lines := splitOnCh '\n' file_content
    let unified_symbols := methods.map
      (methodToSymbol abs_path relative_file_path file_content lines)
    { st with
      document_symbols_cache :=
        alistSet st.document_symbols_cache relative_file_path (file_hash, unified_symbols),
      raw_document_symbols_cache :=
        alistSet st.raw_document_symbols_cache relative_file_path (file_hash, none) }

/-- `BSLLanguageServer._parse_file_local`: read and normalize the file, skip
when the document-symbol cache already holds its hash or the text is blank,
otherwise parse and batch-insert methods, module variables, module-level
calls and per-method calls into the local cache and project the file into
the document-symbol caches.  `fs` maps absolute paths to contents (`none`
when `os.path.exists` is false); the `_local_cache is None` guard cannot
fire (the constructor always creates the cache) and is not modeled. -/
def _parse_file_local (fs : List Char → Option (List Char)) (root : List Char)
    (st : ServerState) (relative_file_path : List Char) : ServerState :=
  let abs_path := osPathJoin root relative_file_path
  match fs abs_path with
  | none => st
  | some raw =>
    let source := normalizeNewlines raw
    let file_hash := contentHash source
    let skip : Bool :=
      match alistLookup st.document_symbols_cache relative_file_path with
      | some hs => decide (hs.1 = file_hash)
      | none => false
    if skip then st
    else if (stripWs source).isEmpty then st
    else
      let parse_result := BSLParser.parse source
      let module := _get_module_for_path abs_path root
      let cache1 :=
        if !parse_result.methods.isEmpty then
          st.local_cache.add_methods_batch
            (parse_result.methods.map (fun method => (method, relative_file_path, module)))
        else st.local_cache
      let cache2 :=
        if !parse_result.module_vars.isEmpty then
          cache1.add_module_vars_batch
            (parse_result.module_vars.map (fun kv => (kv.2, relative_file_path)))
        else cache1
      let cache3 :=
        if !parse_result.global_calls.isEmpty then
          cache2.add_calls_batch (parse_result.global_calls.map
            (fun call => (call, relative_file_path, lc "GlobalModuleText", module)))
        else cache2
      let method_calls := parse_result.methods.flatMap (fun method =>
        method.calls_position.map (fun call => (call, relative_file_path, method.name, module)))
      let cache4 :=
        if !method_calls.isEmpty then cache3.add_calls_batch method_calls else cache3
      _convert_single_file_to_document_symbols { st with local_cache := cache4 }
        relative_file_path abs_path source file_hash parse_result.methods

/-- `BSLLanguageServer._invalidate_file_cache`: drop the file from both
document-symbol caches, remove its data from the local cache, drop it from
the content cache and the converted set, then re-index it. -/
def _invalidate_file_cache (fs : List Char → Option (List Char)) (root : List Char)
    (st : ServerState) (relative_file_path : List Char) : ServerState :=
  let st1 : ServerState :=
    { document_symbols_cache := alistErase st.document_symbols_cache relative_file_path,
      raw_document_symbols_cache :=
        alistErase st.raw_document_symbols_cache relative_file_path,
      local_cache := st.local_cache.remove_file_data relative_file_path,
      file_content_cache := alistErase st.file_content_cache relative_file_path,
      converted_files := st.converted_files.filter (fun f => f ≠ relative_file_path) }
  _parse_file_local fs root st1 relative_file_path

end BSLServer

/-! ## Derived definitions used by the specification statements -/

/-- Spec side of the batch/single round-trip: insert the ordered method
triples one-by-one via `add_method`, in the same order. -/
def addMethodsOneByOne : BSLCache → List (BSLMethod × List Char × List Char) → BSLCache
  | c, [] => c
  | c, t :: rest => addMethodsOneByOne (c.add_method t.1 t.2.1 t.2.2) rest

/-- Spec side: insert module variables one-by-one via `add_module_var`. -/
def addModuleVarsOneByOne : BSLCache → List (BSLModuleVar × List Char) → BSLCache
  | c, [] => c
  | c, t :: rest => addModuleVarsOneByOne (c.add_module_var t.1 t.2) rest

/-- Spec side: insert calls one-by-one via `add_call`. -/
def addCallsOneByOne :
    BSLCache → List (BSLCallPosition × List Char × List Char × List Char) → BSLCache
  | c, [] => c
  | c, t :: rest => addCallsOneByOne (c.add_call t.1 t.2.1 t.2.2.1 t.2.2.2) rest

/-- The ascending positions (from `i` on) of the entries satisfying `p`:
the reference shape of a secondary index bucket. -/
def possBy (p : BSLMethodInfo → Bool) : List BSLMethodInfo → Nat → List Nat
  | [], _ => []
  | mi :: rest, i => (if p mi then [i] else []) ++ possBy p rest (i + 1)

/-- Index consistency of the cache: each name bucket holds exactly the
positions of the entries with that lower-cased name, each module bucket
exactly the positions of the entries with that lower-cased non-empty
module, and the export index exactly the positions of the exported
entries — all in ascending order. -/
def Consistent (c : BSLCache) : Prop :=
  (∀ k, alistLookupD c.method_name_index k []
      = possBy (fun mi => decide (lowerStr mi.method.name = k)) c.methods 0)
  ∧ (∀ k, alistLookupD c.method_module_index k []
      = possBy (fun mi => mi.module ≠ [] && decide (lowerStr mi.module = k)) c.methods 0)
  ∧ c.method_export_index = possBy (fun mi => mi.method.is_export) c.methods 0

/-- The cache's mutating operations, for quantifying over call sequences. -/
inductive CacheOp : Type
  | add_method (m : BSLMethod) (filename module : List Char)
  | add_module_var (v : BSLModuleVar) (filename : List Char)
  | add_call (call : BSLCallPosition) (filename method_name module : List Char)
  | add_module (mi : BSLModuleInfo)
  | add_methods_batch (l : List (BSLMethod × List Char × List Char))
  | add_module_vars_batch (l : List (BSLModuleVar × List Char))
  | add_calls_batch (l : List (BSLCallPosition × List Char × List Char × List Char))
  | remove_file_data (filename : List Char)
  | clear

/-- Interpretation of one mutating operation. -/
def applyOp (c : BSLCache) : CacheOp → BSLCache
  | .add_method m f mod => c.add_method m f mod
  | .add_module_var v f => c.add_module_var v f
  | .add_call call f mn mod => c.add_call call f mn mod
  | .add_module mi => c.add_module mi
  | .add_methods_batch l => c.add_methods_batch l
  | .add_module_vars_batch l => c.add_module_vars_batch l
  | .add_calls_batch l => c.add_calls_batch l
  | .remove_file_data f => c.remove_file_data f
  | .clear => c.clear

/-- Interpretation of a sequence of mutating operations. -/
def applyOps (c : BSLCache) (ops : List CacheOp) : BSLCache := ops.foldl applyOp c

/-- Path segments joined with a separator (the inverse image of
`splitOnCh` on separator-free parts). -/
def joinParts (sep : Char) : List (List Char) → List Char
  | [] => []
  | [p] => p
  | p :: rest => p ++ sep :: joinParts sep rest

/-- The `BSLCallInfo` that `add_call` builds from one batch tuple
`(call, filename, method_name, module)`. -/
def mkCallInfoOf (t : BSLCallPosition × List Char × List Char × List Char) : BSLCallInfo :=
  { filename := t.2.1, call := t.1.call, line := t.1.line, character := t.1.character,
    method_name := t.2.2.1, module := t.2.2.2 }

/-- The `BSLCallInfo` records that `_parse_file_local` inserts for one
file: module-level calls under the pseudo-method `GlobalModuleText`
followed by each method's own calls, in parse order. -/
def BSLServer.newCallInfos (f module : List Char) (pr : BSLParseResult) :
    List BSLCallInfo :=
  pr.global_calls.map (fun call => mkCallInfoOf (call, f, lc "GlobalModuleText", module))
    ++ pr.methods.flatMap (fun m =>
      m.calls_position.map (fun call => mkCallInfoOf (call, f, m.name, module)))

/-! ## General lemmas about the embedding's containers -/

theorem alistErase_cons_self {β : Type} (k : List Char) (v : β)
    (rest : List (List Char × β)) :
    alistErase ((k, v) :: rest) k = alistErase rest k := by
  simp [alistErase]

theorem alistErase_cons_ne {β : Type} (k₀ k : List Char) (v : β)
    (rest : List (List Char × β)) (h : ¬ k₀ = k) :
    alistErase ((k₀, v) :: rest) k = (k₀, v) :: alistErase rest k := by
  simp [alistErase, h]

theorem alistLookup_append_last {β : Type} (l : List (List Char × β)) (k : List Char)
    (v : β) (h : alistLookup l k = none) : alistLookup (l ++ [(k, v)]) k = some v := by
  induction l with
  | nil => simp [alistLookup]
  | cons kv rest ih =>
    rcases kv with ⟨k₀, v₀⟩
    simp only [alistLookup] at h
    by_cases hk : k₀ = k
    · rw [if_pos hk] at h; cases h
    · rw [if_neg hk] at h
      simp only [List.cons_append, alistLookup, if_neg hk]
      exact ih h

theorem alistLookup_append_ne {β : Type} (l : List (List Char × β)) (k k' : List Char)
    (v : β) (h : k' ≠ k) : alistLookup (l ++ [(k, v)]) k' = alistLookup l k' := by
  induction l with
  | nil => simp only [List.nil_append, alistLookup, if_neg (Ne.symm h)]
  | cons kv rest ih =>
    rcases kv with ⟨k₀, v₀⟩
    by_cases hk : k₀ = k'
    · simp only [List.cons_append, alistLookup, if_pos hk]
    · simp only [List.cons_append, alistLookup, if_neg hk]
      exact ih

theorem alistLookup_set_self {β : Type} (l : List (List Char × β)) (k : List Char)
    (v : β) : alistLookup (alistSet l k v) k = some v := by
  induction l with
  | nil => simp [alistSet, alistLookup]
  | cons kv rest ih =>
    rcases kv with ⟨k₀, v₀⟩
    by_cases hk : k₀ = k
    · simp [alistSet, if_pos hk, alistLookup]
    · simp only [alistSet, if_neg hk, alistLookup, if_neg hk]
      exact ih

theorem alistLookup_set_ne {β : Type} (l : List (List Char × β)) (k k' : List Char)
    (v : β) (h : k' ≠ k) : alistLookup (alistSet l k v) k' = alistLookup l k' := by
  induction l with
  | nil => simp only [alistSet, alistLookup, if_neg (Ne.symm h)]
  | cons kv rest ih =>
    rcases kv with ⟨k₀, v₀⟩
    by_cases hk : k₀ = k
    · subst hk
      simp only [alistSet, if_pos rfl, alistLookup, if_neg (Ne.symm h)]
    · simp only [alistSet, if_neg hk, alistLookup]
      by_cases hk' : k₀ = k'
      · simp only [if_pos hk']
      · simp only [if_neg hk']
        exact ih

theorem alistLookup_erase_self {β : Type} (l : List (List Char × β)) (k : List Char) :
    alistLookup (alistErase l k) k = none := by
  induction l with
  | nil => rfl
  | cons kv rest ih =>
    rcases kv with ⟨k₀, v₀⟩
    by_cases hk : k₀ = k
    · rw [hk, alistErase_cons_self]
      exact ih
    · rw [alistErase_cons_ne k₀ k v₀ rest hk]
      simp only [alistLookup, if_neg hk]
      exact ih

theorem alistLookup_erase_ne {β : Type} (l : List (List Char × β)) (k k' : List Char)
    (h : k' ≠ k) : alistLookup (alistErase l k) k' = alistLookup l k' := by
  induction l with
  | nil => rfl
  | cons kv rest ih =>
    rcases kv with ⟨k₀, v₀⟩
    by_cases hk : k₀ = k
    · subst hk
      rw [alistErase_cons_self]
      simp only [alistLookup, if_neg (Ne.symm h)]
      exact ih
    · rw [alistErase_cons_ne k₀ k v₀ rest hk]
      simp only [alistLookup]
      by_cases hk' : k₀ = k'
      · simp only [if_pos hk']
      · simp only [if_neg hk']
        exact ih

theorem alistErase_idem {β : Type} (l : List (List Char × β)) (k : List Char) :
    alistErase (alistErase l k) k = alistErase l k := by
  simp only [alistErase, List.filter_filter, Bool.and_self]

theorem alistAppend_lookup_self {β : Type} (l : List (List Char × List β)) (k : List Char)
    (x : β) : alistLookup (alistAppend l k x) k = some (alistLookupD l k [] ++ [x]) := by
  unfold alistAppend alistLookupD
  cases h : alistLookup l k with
  | some v => simp [alistLookup_set_self, h]
  | none => simp [alistLookup_append_last l k _ h, h]

theorem alistAppend_lookup_ne {β : Type} (l : List (List Char × List β)) (k k' : List Char)
    (x : β) (h : k' ≠ k) : alistLookup (alistAppend l k x) k' = alistLookup l k' := by
  unfold alistAppend
  cases hl : alistLookup l k with
  | some v => exact alistLookup_set_ne l k k' _ h
  | none => exact alistLookup_append_ne l k k' _ h

theorem alistLookup_eq_none_of_keys_ne {β : Type} (l : List (List Char × β))
    (k : List Char) (h : ∀ kv ∈ l, kv.1 ≠ k) : alistLookup l k = none := by
  induction l with
  | nil => rfl
  | cons kv rest ih =>
    simp only [alistLookup, if_neg (h kv (List.mem_cons_self kv rest))]
    exact ih (fun kv' h' => h kv' (List.mem_cons_of_mem kv h'))

/-- Popping a descending list of shifted indices from a cons cell leaves the
head untouched. -/
theorem foldl_eraseIdx_map_succ {α : Type} (x : α) :
    ∀ (D : List Nat) (l : List α),
      (D.map Nat.succ).foldl (fun acc i => acc.eraseIdx i) (x :: l)
        = x :: D.foldl (fun acc i => acc.eraseIdx i) l := by
  intro D
  induction D with
  | nil => intro l; rfl
  | cons d D' ih =>
    intro l
    simp only [List.map_cons, List.foldl_cons, List.eraseIdx_cons_succ]
    exact ih (l.eraseIdx d)

/-- Collecting the indices whose element satisfies `p` from the back and
popping them one by one is the same as filtering `p` out. -/
theorem foldl_eraseIdx_filter {α : Type} (p : α → Bool) :
    ∀ (l : List α),
      (((List.range l.length).filter (getMatches p l)).reverse).foldl
          (fun acc i => acc.eraseIdx i) l
        = l.filter (fun a => !p a) := by
  intro l
  induction l with
  | nil => rfl
  | cons x xs ih =>
    have hq : getMatches p (x :: xs) ∘ Nat.succ = getMatches p xs := by
      funext i
      simp [getMatches, List.get?_cons_succ, Function.comp]
    have hz : getMatches p (x :: xs) 0 = p x := by simp [getMatches]
    by_cases hx : p x
    · simp only [List.length_cons, List.range_succ_eq_map, List.filter_cons,
        hz, hx, if_true]
      rw [List.filter_map, hq, List.reverse_cons, ← List.map_reverse,
        List.foldl_append, foldl_eraseIdx_map_succ x _ xs, ih]
      simp [List.filter_cons, hx]
    · simp only [List.length_cons, List.range_succ_eq_map, List.filter_cons,
        hz, hx, Bool.false_eq_true, if_false]
      rw [List.filter_map, hq, ← List.map_reverse,
        foldl_eraseIdx_map_succ x _ xs, ih]
      simp [List.filter_cons, hx]

/-- `filterMap` with the list's own `get?` over its index range is the list
itself. -/
theorem filterMap_get?_range {α : Type} :
    ∀ (l : List α), (List.range l.length).filterMap (fun i => l.get? i) = l := by
  intro l
  induction l with
  | nil => rfl
  | cons x xs ih =>
    simp only [List.length_cons, List.range_succ_eq_map, List.filterMap_cons,
      List.get?_cons_zero, List.filterMap_map]
    have hc : (fun i => (x :: xs).get? i) ∘ Nat.succ = fun i => xs.get? i := by
      funext i
      simp [Function.comp]
    rw [hc, ih]

/-! ## Lemmas about `BSLCache.remove_file_data` and the queries -/

/-- Membership in a defaulted bucket lookup comes from a present bucket. -/
theorem mem_alistLookupD {β : Type} (l : List (List Char × List β)) (k : List Char)
    (x : β) (h : x ∈ alistLookupD l k []) : ∃ v, alistLookup l k = some v ∧ x ∈ v := by
  unfold alistLookupD at h
  cases hl : alistLookup l k with
  | none => rw [hl] at h; cases h
  | some v => rw [hl] at h; exact ⟨v, rfl, h⟩

namespace BSLCache

theorem remove_file_data_methods (c : BSLCache) (f : List Char) :
    (c.remove_file_data f).methods
      = c.methods.filter (fun mi => !(decide (mi.filename = f))) := by
  show ((indicesToRemove c.methods f).foldl (fun acc idx => acc.eraseIdx idx) c.methods)
      = c.methods.filter (fun mi => !(decide (mi.filename = f)))
  exact foldl_eraseIdx_filter (fun mi => decide (mi.filename = f)) c.methods

theorem remove_file_data_module_vars (c : BSLCache) (f : List Char) :
    (c.remove_file_data f).module_vars = alistErase c.module_vars f := rfl

theorem remove_file_data_calls (c : BSLCache) (f : List Char) :
    (c.remove_file_data f).calls
      = (c.calls.map (fun kv =>
          (kv.1, kv.2.filter (fun call => call.filename ≠ f)))).filter
        (fun kv => !kv.2.isEmpty) := rfl

theorem remove_file_data_modules (c : BSLCache) (f : List Char) :
    (c.remove_file_data f).modules = c.modules.filter (fun m => m.filename ≠ f) := rfl

theorem mem_remove_file_data_methods (c : BSLCache) (f : List Char) (mi : BSLMethodInfo)
    (h : mi ∈ (c.remove_file_data f).methods) : mi ∈ c.methods ∧ mi.filename ≠ f := by
  rw [remove_file_data_methods] at h
  rcases List.mem_filter.mp h with ⟨h1, h2⟩
  simp only [Bool.not_eq_true', decide_eq_false_iff_not] at h2
  exact ⟨h1, h2⟩

/-- A bucket surviving the call-filtering of `remove_file_data` is the
filtered list of a bucket of the original structure. -/
theorem lookup_filtered_calls_origin (f k : List Char) :
    ∀ (L : List (List Char × List BSLCallInfo)) (v : List BSLCallInfo),
      alistLookup ((L.map (fun kv =>
          (kv.1, kv.2.filter (fun call => call.filename ≠ f)))).filter
        (fun kv => !kv.2.isEmpty)) k = some v →
      ∃ kv₀ ∈ L, v = kv₀.2.filter (fun call => call.filename ≠ f) := by
  intro L
  induction L with
  | nil => intro v hl; cases hl
  | cons kv rest ih =>
    intro v hl
    simp only [List.map_cons, List.filter_cons] at hl
    by_cases hne : !(kv.2.filter (fun call => call.filename ≠ f)).isEmpty
    · rw [if_pos hne] at hl
      simp only [alistLookup] at hl
      by_cases hk : kv.1 = k
      · rw [if_pos hk] at hl
        cases hl
        exact ⟨kv, List.mem_cons_self kv rest, rfl⟩
      · rw [if_neg hk] at hl
        rcases ih v hl with ⟨kv₀, hmem, hv⟩
        exact ⟨kv₀, List.mem_cons_of_mem kv hmem, hv⟩
    · rw [if_neg hne] at hl
      rcases ih v hl with ⟨kv₀, hmem, hv⟩
      exact ⟨kv₀, List.mem_cons_of_mem kv hmem, hv⟩

theorem mem_remove_file_data_calls (c : BSLCache) (f k : List Char) (ci : BSLCallInfo)
    (h : ci ∈ alistLookupD (c.remove_file_data f).calls k []) : ci.filename ≠ f := by
  rw [remove_file_data_calls] at h
  rcases mem_alistLookupD _ k ci h with ⟨v, hl, hv⟩
  rcases lookup_filtered_calls_origin f k c.calls v hl with ⟨kv₀, _, hveq⟩
  subst hveq
  rcases List.mem_filter.mp hv with ⟨_, hne⟩
  simpa using hne

theorem find_methods_subset (c : BSLCache) (q : Option QueryDict) :
    ∀ mi ∈ c.find_methods q, mi ∈ c.methods := by
  intro mi h
  cases q with
  | none => exact h
  | some qd =>
    by_cases hq : qd.isEmpty
    · simpa [find_methods, hq] using h
    · simp only [find_methods, hq, Bool.false_eq_true, if_false] at h
      rcases List.mem_filterMap.mp h with ⟨idx, _, hf⟩
      cases hg : c.methods.get? idx with
      | none => rw [hg] at hf; cases hf
      | some mi' =>
        rw [hg] at hf
        by_cases hp : methodPasses qd mi'
        · simp only [hp, if_true] at hf
          cases hf
          exact List.get?_mem hg
        · simp only [hp, Bool.false_eq_true, if_false] at hf
          cases hf

end BSLCache

/-- C2: `remove_file_data(f)` removes exactly the method entries whose
filename is `f`, removes `f`'s module-variable collection, removes `f`'s
call records from every callee bucket dropping buckets that become empty,
and removes `f`'s module-metadata records, leaving all other files' data
unchanged; afterwards the `methods` statistic has decreased by exactly the
number of entries `f` owned, and no query can return an entry with filename
`f`.  The operation is a total function of the cache state, so calling it
for a file that was never present runs the same code path and raises
nothing (the filters remove no entry). -/
theorem C2_remove_file_data_spec (c : BSLCache) (f : List Char) :
    (c.remove_file_data f).methods = c.methods.filter (fun mi => mi.filename ≠ f)
    ∧ (c.remove_file_data f).module_vars = alistErase c.module_vars f
    ∧ (c.remove_file_data f).calls
        = (c.calls.map (fun kv =>
            (kv.1, kv.2.filter (fun call => call.filename ≠ f)))).filter
          (fun kv => !kv.2.isEmpty)
    ∧ (c.remove_file_data f).modules = c.modules.filter (fun m => m.filename ≠ f)
    ∧ (c.get_stats).methods
        = ((c.remove_file_data f).get_stats).methods
          + (c.methods.filter (fun mi => mi.filename = f)).length
    ∧ (∀ q, ∀ mi ∈ (c.remove_file_data f).find_methods q, mi.filename ≠ f) := by
  have hm : (c.remove_file_data f).methods
      = c.methods.filter (fun mi => mi.filename ≠ f) := by
    rw [BSLCache.remove_file_data_methods]
    simp only [ne_eq, decide_not]
  refine ⟨hm, BSLCache.remove_file_data_module_vars c f,
    BSLCache.remove_file_data_calls c f, BSLCache.remove_file_data_modules c f, ?_, ?_⟩
  · show c.methods.length
        = (c.remove_file_data f).methods.length
          + (c.methods.filter (fun mi => mi.filename = f)).length
    rw [BSLCache.remove_file_data_methods]
    rw [List.length_eq_length_filter_add (l := c.methods)
      (fun mi => decide (mi.filename = f))]
    omega
  · intro q mi h
    exact (BSLCache.mem_remove_file_data_methods c f mi
      (BSLCache.find_methods_subset _ q mi h)).2

attribute [ext] BSLCache

/-- The indexes left by `remove_file_data` are exactly the rebuild fold over
the filtered method list. -/
theorem BSLCache.remove_file_data_indexes (c : BSLCache) (f : List Char) :
    (c.remove_file_data f).method_name_index
        = (((c.methods.filter (fun mi => !(decide (mi.filename = f)))).enum.foldl
            BSLCache.rebuildStep ([], [], [])).1)
      ∧ (c.remove_file_data f).method_module_index
        = (((c.methods.filter (fun mi => !(decide (mi.filename = f)))).enum.foldl
            BSLCache.rebuildStep ([], [], [])).2.1)
      ∧ (c.remove_file_data f).method_export_index
        = (((c.methods.filter (fun mi => !(decide (mi.filename = f)))).enum.foldl
            BSLCache.rebuildStep ([], [], [])).2.2) := by
  have h := BSLCache.remove_file_data_methods c f
  refine ⟨?_, ?_, ?_⟩
  · show (((c.remove_file_data f).methods).enum.foldl BSLCache.rebuildStep ([], [], [])).1 = _
    rw [h]
  · show (((c.remove_file_data f).methods).enum.foldl BSLCache.rebuildStep ([], [], [])).2.1 = _
    rw [h]
  · show (((c.remove_file_data f).methods).enum.foldl BSLCache.rebuildStep ([], [], [])).2.2 = _
    rw [h]

/-- C8: `remove_file_data` is idempotent — the second call finds no entry of
the file anywhere and leaves the cache state unchanged (and, the operation
being a total function, raises nothing). -/
theorem C8_remove_file_data_idempotent (c : BSLCache) (f : List Char) :
    (c.remove_file_data f).remove_file_data f = c.remove_file_data f := by
  have hmethods : (c.remove_file_data f).methods.filter
      (fun mi => !(decide (mi.filename = f))) = (c.remove_file_data f).methods := by
    rw [BSLCache.remove_file_data_methods, List.filter_filter]
    simp
  ext : 1
  · rw [BSLCache.remove_file_data_methods, hmethods]
  · rw [BSLCache.remove_file_data_module_vars, BSLCache.remove_file_data_module_vars,
      alistErase_idem]
  · -- call buckets: already filtered and non-empty, the second pass is the identity
    rw [BSLCache.remove_file_data_calls]
    have hmap : ((c.remove_file_data f).calls).map (fun kv =>
        (kv.1, kv.2.filter (fun call => call.filename ≠ f)))
        = (c.remove_file_data f).calls := by
      have hcong : ∀ kv ∈ (c.remove_file_data f).calls,
          (fun kv => (kv.1, kv.2.filter (fun call => call.filename ≠ f))) kv = id kv := by
        intro kv hkv
        rw [BSLCache.remove_file_data_calls] at hkv
        rcases List.mem_filter.mp hkv with ⟨hkv1, _⟩
        rcases List.mem_map.mp hkv1 with ⟨kv₀, _, hkveq⟩
        subst hkveq
        simp only [id, List.filter_filter]
        simp
      rw [List.map_congr_left hcong, List.map_id]
    rw [hmap]
    apply List.filter_eq_self.mpr
    intro kv hkv
    rw [BSLCache.remove_file_data_calls] at hkv
    exact (List.mem_filter.mp hkv).2
  · rw [BSLCache.remove_file_data_modules, BSLCache.remove_file_data_modules,
      List.filter_filter]
    simp
  · rw [(BSLCache.remove_file_data_indexes (c.remove_file_data f) f).1,
      (BSLCache.remove_file_data_indexes c f).1, hmethods, BSLCache.remove_file_data_methods]
  · rw [(BSLCache.remove_file_data_indexes (c.remove_file_data f) f).2.1,
      (BSLCache.remove_file_data_indexes c f).2.1, hmethods, BSLCache.remove_file_data_methods]
  · rw [(BSLCache.remove_file_data_indexes (c.remove_file_data f) f).2.2,
      (BSLCache.remove_file_data_indexes c f).2.2, hmethods, BSLCache.remove_file_data_methods]

/-! ## C7 and C9: batch refinement and unknown query keys -/

theorem add_methods_batch_eq_one_by_one (l : List (BSLMethod × List Char × List Char)) :
    ∀ c : BSLCache, c.add_methods_batch l = addMethodsOneByOne c l := by
  induction l with
  | nil => intro c; rfl
  | cons t rest ih =>
    intro c
    show (c.add_method t.1 t.2.1 t.2.2).add_methods_batch rest = _
    rw [ih, addMethodsOneByOne]

theorem add_module_vars_batch_eq_one_by_one (l : List (BSLModuleVar × List Char)) :
    ∀ c : BSLCache, c.add_module_vars_batch l = addModuleVarsOneByOne c l := by
  induction l with
  | nil => intro c; rfl
  | cons t rest ih =>
    intro c
    show (c.add_module_var t.1 t.2).add_module_vars_batch rest = _
    rw [ih, addModuleVarsOneByOne]

theorem add_calls_batch_eq_one_by_one
    (l : List (BSLCallPosition × List Char × List Char × List Char)) :
    ∀ c : BSLCache, c.add_calls_batch l = addCallsOneByOne c l := by
  induction l with
  | nil => intro c; rfl
  | cons t rest ih =>
    intro c
    show (c.add_call t.1 t.2.1 t.2.2.1 t.2.2.2).add_calls_batch rest = _
    rw [ih, addCallsOneByOne]

/-- C7: each batched insertion produces the very cache state that the same
ordered list of single insertions produces — in particular `find_methods`
with the empty query returns the same entries (even as ordered lists, hence
a fortiori as unordered sets). -/
theorem C7_batch_equals_one_by_one (c : BSLCache)
    (l : List (BSLMethod × List Char × List Char))
    (lv : List (BSLModuleVar × List Char))
    (lcalls : List (BSLCallPosition × List Char × List Char × List Char)) :
    c.add_methods_batch l = addMethodsOneByOne c l
    ∧ (c.add_methods_batch l).find_methods (some [])
        = (addMethodsOneByOne c l).find_methods (some [])
    ∧ c.add_module_vars_batch lv = addModuleVarsOneByOne c lv
    ∧ c.add_calls_batch lcalls = addCallsOneByOne c lcalls := by
  refine ⟨add_methods_batch_eq_one_by_one l c, ?_,
    add_module_vars_batch_eq_one_by_one lv c, add_calls_batch_eq_one_by_one lcalls c⟩
  rw [add_methods_batch_eq_one_by_one l c]

/-- C9: a non-empty query whose keys are all unrecognized filters nothing:
`find_methods` silently ignores the unknown criteria and returns every
stored entry. -/
theorem C9_unknown_query_keys_ignored (c : BSLCache) (q : QueryDict)
    (hne : q ≠ [])
    (hkeys : ∀ kv ∈ q, kv.1 ∉ ([lc "name", lc "module", lc "is_export",
      lc "isExport", lc "context", lc "isproc"] : List (List Char))) :
    c.find_methods (some q) = c.methods := by
  have hk : ∀ k ∈ ([lc "name", lc "module", lc "is_export", lc "isExport",
      lc "context", lc "isproc"] : List (List Char)), alistLookup q k = none := by
    intro k hkmem
    apply alistLookup_eq_none_of_keys_ne
    intro kv hkv he
    exact hkeys kv hkv (he ▸ hkmem)
  have hname := hk (lc "name") (by simp)
  have hmodule := hk (lc "module") (by simp)
  have hise := hk (lc "is_export") (by simp)
  have hisE := hk (lc "isExport") (by simp)
  have hctx := hk (lc "context") (by simp)
  have hproc := hk (lc "isproc") (by simp)
  have hempty : q.isEmpty = false := by
    cases q with
    | nil => exact absurd rfl hne
    | cons a t => rfl
  have hpass : ∀ mi, BSLCache.methodPasses q mi = true := by
    intro mi
    unfold BSLCache.methodPasses
    rw [hctx, hproc]
    rfl
  simp only [BSLCache.find_methods, hempty, Bool.false_eq_true, if_false,
    hname, hmodule, hise, hisE, hpass, if_true, Option.getD_none]
  have hfun : (fun idx =>
      match c.methods.get? idx with
      | none => none
      | some method_info => some method_info)
      = fun idx => c.methods.get? idx := by
    funext idx
    cases c.methods.get? idx <;> rfl
  rw [hfun]
  exact filterMap_get?_range c.methods

/-- C9 witness: a concrete one-entry cache queried with the misspelled key
`foo` returns its whole entry list. -/
theorem C9_witness :
    BSLCache.find_methods
        (BSLCache.init.add_method
          { name := lc "Тест", line := 0, endline := 1, isproc := true,
            is_export := true } (lc "a.bsl") (lc "Мод"))
        (some [(lc "foo", QueryVal.str (lc "bar"))])
      = (BSLCache.init.add_method
          { name := lc "Тест", line := 0, endline := 1, isproc := true,
            is_export := true } (lc "a.bsl") (lc "Мод")).methods :=
  C9_unknown_query_keys_ignored _ _ (List.cons_ne_nil _ _)
    (by
      intro kv hkv
      have hkv' := List.mem_singleton.mp hkv
      subst hkv'
      decide)

/-! ## C3: index consistency under all mutating operations -/

theorem possBy_append (p : BSLMethodInfo → Bool) (x : BSLMethodInfo) :
    ∀ (l : List BSLMethodInfo) (i : Nat),
      possBy p (l ++ [x]) i = possBy p l i ++ (if p x then [i + l.length] else []) := by
  intro l
  induction l with
  | nil =>
    intro i
    simp [possBy]
  | cons mi rest ih =>
    intro i
    show (if p mi then [i] else []) ++ possBy p (rest ++ [x]) (i + 1)
      = ((if p mi then [i] else []) ++ possBy p rest (i + 1))
        ++ (if p x then [i + (mi :: rest).length] else [])
    rw [ih (i + 1)]
    have h1 : i + 1 + rest.length = i + (mi :: rest).length := by
      simp only [List.length_cons]
      omega
    rw [h1, List.append_assoc]

theorem consistent_add_method (c : BSLCache) (m : BSLMethod) (f mod : List Char)
    (h : Consistent c) : Consistent (c.add_method m f mod) := by
  rcases h with ⟨hn, hm, he⟩
  refine ⟨?_, ?_, ?_⟩
  · intro k
    show alistLookupD (alistAppend c.method_name_index (lowerStr m.name)
          c.methods.length) k []
        = possBy (fun mi => decide (lowerStr mi.method.name = k))
            (c.methods ++ [⟨m, f, mod⟩]) 0
    rw [possBy_append]
    by_cases hk : k = lowerStr m.name
    · subst hk
      unfold alistLookupD
      rw [alistAppend_lookup_self, Option.getD_some, hn (lowerStr m.name)]
      simp
    · unfold alistLookupD
      rw [alistAppend_lookup_ne _ _ _ _ hk]
      have hd : decide (lowerStr m.name = k) = false := by
        simp only [decide_eq_false_iff_not]
        exact fun he' => hk he'.symm
      simp only [hd, Bool.false_eq_true, if_false, List.append_nil]
      exact hn k
  · intro k
    show alistLookupD (if mod ≠ [] then alistAppend c.method_module_index
          (lowerStr mod) c.methods.length else c.method_module_index) k []
        = possBy (fun mi => decide (mi.module ≠ []) && decide (lowerStr mi.module = k))
            (c.methods ++ [⟨m, f, mod⟩]) 0
    rw [possBy_append]
    by_cases hmod : mod = []
    · subst hmod
      simp only [ne_eq, not_true_eq_false, decide_False, Bool.false_and,
        Bool.false_eq_true, if_false, List.append_nil]
      exact hm k
    · rw [if_pos (by simpa using hmod)]
      by_cases hk : k = lowerStr mod
      · subst hk
        unfold alistLookupD
        rw [alistAppend_lookup_self, Option.getD_some, hm (lowerStr mod)]
        simp [hmod]
      · unfold alistLookupD
        rw [alistAppend_lookup_ne _ _ _ _ hk]
        have hd : decide (lowerStr mod = k) = false := by
          simp only [decide_eq_false_iff_not]
          exact fun he' => hk he'.symm
        simp only [hd, Bool.and_false, Bool.false_eq_true, if_false, List.append_nil]
        exact hm k
  · show (if m.is_export then c.method_export_index ++ [c.methods.length]
          else c.method_export_index)
        = possBy (fun mi => mi.method.is_export) (c.methods ++ [⟨m, f, mod⟩]) 0
    rw [possBy_append]
    by_cases hx : m.is_export
    · simp [hx, he]
    · simp [hx, he]

theorem rebuild_fold_name (k : List Char) :
    ∀ (ms : List BSLMethodInfo) (i : Nat)
      (accN accM : List (List Char × List Nat)) (accE : List Nat),
      alistLookupD (((ms.enumFrom i).foldl BSLCache.rebuildStep (accN, accM, accE)).1) k []
        = alistLookupD accN k []
          ++ possBy (fun mi => decide (lowerStr mi.method.name = k)) ms i := by
  intro ms
  induction ms with
  | nil =>
    intro i accN accM accE
    simp [possBy]
  | cons mi rest ih =>
    intro i accN accM accE
    show alistLookupD (((rest.enumFrom (i + 1)).foldl BSLCache.rebuildStep
        (alistAppend accN (lowerStr mi.method.name) i,
         (if mi.module ≠ [] then alistAppend accM (lowerStr mi.module) i else accM),
         (if mi.method.is_export then accE ++ [i] else accE))).1) k [] = _
    rw [ih (i + 1)]
    show alistLookupD (alistAppend accN (lowerStr mi.method.name) i) k [] ++ _
      = alistLookupD accN k []
        ++ ((if decide (lowerStr mi.method.name = k) then [i] else [])
          ++ possBy (fun mi => decide (lowerStr mi.method.name = k)) rest (i + 1))
    by_cases hk : k = lowerStr mi.method.name
    · subst hk
      unfold alistLookupD
      rw [alistAppend_lookup_self, Option.getD_some]
      simp only [decide_True, if_true, List.append_assoc]
      rfl
    · unfold alistLookupD
      rw [alistAppend_lookup_ne _ _ _ _ hk]
      have hd : decide (lowerStr mi.method.name = k) = false := by
        simp only [decide_eq_false_iff_not]
        exact fun he' => hk he'.symm
      rw [hd]
      simp

theorem rebuild_fold_module (k : List Char) :
    ∀ (ms : List BSLMethodInfo) (i : Nat)
      (accN accM : List (List Char × List Nat)) (accE : List Nat),
      alistLookupD (((ms.enumFrom i).foldl BSLCache.rebuildStep (accN, accM, accE)).2.1) k []
        = alistLookupD accM k []
          ++ possBy (fun mi => decide (mi.module ≠ []) && decide (lowerStr mi.module = k))
              ms i := by
  intro ms
  induction ms with
  | nil =>
    intro i accN accM accE
    simp [possBy]
  | cons mi rest ih =>
    intro i accN accM accE
    show alistLookupD (((rest.enumFrom (i + 1)).foldl BSLCache.rebuildStep
        (alistAppend accN (lowerStr mi.method.name) i,
         (if mi.module ≠ [] then alistAppend accM (lowerStr mi.module) i else accM),
         (if mi.method.is_export then accE ++ [i] else accE))).2.1) k [] = _
    rw [ih (i + 1)]
    show alistLookupD (if mi.module ≠ [] then alistAppend accM (lowerStr mi.module) i
          else accM) k [] ++ _
      = alistLookupD accM k []
        ++ ((if decide (mi.module ≠ []) && decide (lowerStr mi.module = k)
              then [i] else [])
          ++ possBy (fun mi => decide (mi.module ≠ []) && decide (lowerStr mi.module = k))
              rest (i + 1))
    by_cases hmod : mi.module = []
    · simp only [hmod, ne_eq, not_true_eq_false, decide_False, Bool.false_and,
        Bool.false_eq_true, if_false, List.nil_append]
    · rw [if_pos (by simpa using hmod)]
      by_cases hk : k = lowerStr mi.module
      · subst hk
        unfold alistLookupD
        rw [alistAppend_lookup_self, Option.getD_some]
        simp only [hmod, ne_eq, not_false_eq_true, decide_True, Bool.true_and,
          if_true, List.append_assoc]
        rfl
      · unfold alistLookupD
        rw [alistAppend_lookup_ne _ _ _ _ hk]
        have hd : decide (lowerStr mi.module = k) = false := by
          simp only [decide_eq_false_iff_not]
          exact fun he' => hk he'.symm
        rw [hd]
        simp

theorem rebuild_fold_export :
    ∀ (ms : List BSLMethodInfo) (i : Nat)
      (accN accM : List (List Char × List Nat)) (accE : List Nat),
      ((ms.enumFrom i).foldl BSLCache.rebuildStep (accN, accM, accE)).2.2
        = accE ++ possBy (fun mi => mi.method.is_export) ms i := by
  intro ms
  induction ms with
  | nil =>
    intro i accN accM accE
    simp [possBy]
  | cons mi rest ih =>
    intro i accN accM accE
    show ((rest.enumFrom (i + 1)).foldl BSLCache.rebuildStep
        (alistAppend accN (lowerStr mi.method.name) i,
         (if mi.module ≠ [] then alistAppend accM (lowerStr mi.module) i else accM),
         (if mi.method.is_export then accE ++ [i] else accE))).2.2 = _
    rw [ih (i + 1)]
    show (if mi.method.is_export then accE ++ [i] else accE) ++ _
      = accE ++ ((if mi.method.is_export then [i] else [])
        ++ possBy (fun mi => mi.method.is_export) rest (i + 1))
    by_cases hx : mi.method.is_export
    · simp [hx, List.append_assoc]
    · simp [hx]

theorem consistent_rebuild (c : BSLCache) : Consistent c._rebuild_indices := by
  refine ⟨?_, ?_, ?_⟩
  · intro k
    show alistLookupD (((c.methods.enumFrom 0).foldl BSLCache.rebuildStep ([], [], [])).1) k []
        = _
    rw [rebuild_fold_name k c.methods 0 [] [] []]
    rfl
  · intro k
    show alistLookupD
        (((c.methods.enumFrom 0).foldl BSLCache.rebuildStep ([], [], [])).2.1) k [] = _
    rw [rebuild_fold_module k c.methods 0 [] [] []]
    rfl
  · show ((c.methods.enumFrom 0).foldl BSLCache.rebuildStep ([], [], [])).2.2 = _
    rw [rebuild_fold_export c.methods 0 [] [] []]
    rfl

/-- All the consistency-relevant fields of `remove_file_data`'s result come
from a rebuild, so the result is consistent whatever the input was. -/
theorem consistent_remove_file_data (c : BSLCache) (f : List Char) :
    Consistent (c.remove_file_data f) := by
  have h := consistent_rebuild
    { c with methods := (List.foldl (fun acc idx => acc.eraseIdx idx) c.methods
        (BSLCache.indicesToRemove c.methods f)) }
  exact h

/-- The fresh cache is consistent. -/
theorem consistent_init : Consistent BSLCache.init :=
  ⟨fun _ => rfl, fun _ => rfl, rfl⟩

theorem consistent_one_by_one_methods :
    ∀ (l : List (BSLMethod × List Char × List Char)) (c : BSLCache),
      Consistent c → Consistent (addMethodsOneByOne c l) := by
  intro l
  induction l with
  | nil => exact fun c hc => hc
  | cons t rest ih =>
    exact fun c hc => ih (c.add_method t.1 t.2.1 t.2.2)
      (consistent_add_method c t.1 t.2.1 t.2.2 hc)

theorem consistent_one_by_one_vars :
    ∀ (l : List (BSLModuleVar × List Char)) (c : BSLCache),
      Consistent c → Consistent (addModuleVarsOneByOne c l) := by
  intro l
  induction l with
  | nil => exact fun c hc => hc
  | cons t rest ih => exact fun c hc => ih (c.add_module_var t.1 t.2) hc

theorem consistent_one_by_one_calls :
    ∀ (l : List (BSLCallPosition × List Char × List Char × List Char)) (c : BSLCache),
      Consistent c → Consistent (addCallsOneByOne c l) := by
  intro l
  induction l with
  | nil => exact fun c hc => hc
  | cons t rest ih => exact fun c hc => ih (c.add_call t.1 t.2.1 t.2.2.1 t.2.2.2) hc

/-- C3: after any sequence of the cache's mutating operations starting from
the fresh cache, the three secondary indexes are consistent with the
primary method list. -/
theorem C3_indexes_always_consistent (ops : List CacheOp) :
    Consistent (applyOps BSLCache.init ops) := by
  have hstep : ∀ (c : BSLCache) (op : CacheOp), Consistent c → Consistent (applyOp c op) := by
    intro c op hc
    cases op with
    | add_method m f mod => exact consistent_add_method c m f mod hc
    | add_module_var v f => exact hc
    | add_call call f mn mod => exact hc
    | add_module mi => exact hc
    | add_methods_batch l =>
      show Consistent (c.add_methods_batch l)
      rw [add_methods_batch_eq_one_by_one]
      exact consistent_one_by_one_methods l c hc
    | add_module_vars_batch l =>
      show Consistent (c.add_module_vars_batch l)
      rw [add_module_vars_batch_eq_one_by_one]
      exact consistent_one_by_one_vars l c hc
    | add_calls_batch l =>
      show Consistent (c.add_calls_batch l)
      rw [add_calls_batch_eq_one_by_one]
      exact consistent_one_by_one_calls l c hc
    | remove_file_data f => exact consistent_remove_file_data c f
    | clear => exact consistent_init
  have hall : ∀ (ops' : List CacheOp) (c : BSLCache), Consistent c
      → Consistent (applyOps c ops') := by
    intro ops'
    induction ops' with
    | nil => exact fun c hc => hc
    | cons op rest ih => exact fun c hc => ih (applyOp c op) (hstep c op hc)
  exact hall ops BSLCache.init consistent_init

/-! ## C5: determinism of `parse` -/

/-- C5: `parse` is a pure function of the source text: the embedding
translates the Python method — which reads nothing but its argument and
the class's compiled constants — into a function, and identical inputs
give identical `ParseResult`s. -/
theorem C5_parse_deterministic (s₁ s₂ : List Char) (h : s₁ = s₂) :
    BSLParser.parse s₁ = BSLParser.parse s₂ := by rw [h]

/-- C5 witness: the determinism theorem applied at a concrete source. -/
theorem C5_witness :
    BSLParser.parse (lc "Процедура Тест()\nКонецПроцедуры")
      = BSLParser.parse (lc "Процедура Тест()\nКонецПроцедуры") :=
  C5_parse_deterministic _ _ rfl

/-! ## C4: bounds of every parsed method -/

theorem countCh_take_le (ch : Char) (s : List Char) (n : Nat) :
    countCh ch (s.take n) ≤ countCh ch s :=
  ((List.take_sublist n s).filter _).length_le

theorem splitOnCh_ne_nil (sep : Char) (s : List Char) : splitOnCh sep s ≠ [] := by
  induction s with
  | nil => simp [splitOnCh]
  | cons c cs ih =>
    by_cases hc : c = sep
    · simp [splitOnCh, hc]
    · simp only [splitOnCh, if_neg hc]
      cases hsp : splitOnCh sep cs with
      | nil => exact absurd hsp ih
      | cons l ls => simp

theorem length_splitOnCh (sep : Char) (s : List Char) :
    (splitOnCh sep s).length = countCh sep s + 1 := by
  induction s with
  | nil => rfl
  | cons c cs ih =>
    by_cases hc : c = sep
    · simp [splitOnCh, hc, countCh, List.filter_cons]
      simpa [countCh] using ih
    · simp only [splitOnCh, if_neg hc]
      cases hsp : splitOnCh sep cs with
      | nil => exact absurd hsp (splitOnCh_ne_nil sep cs)
      | cons l ls =>
        rw [hsp] at ih
        simp only [List.length_cons] at ih
        simp only [List.length_cons, countCh, List.filter_cons, hc,
          decide_False, Bool.false_eq_true, if_false]
        simpa [countCh] using ih

theorem resyncLine_lt (lines : List (List Char)) (name : List Char) (sl : Nat)
    (h : sl < lines.length) : BSLParser.resyncLine lines name sl < lines.length := by
  unfold BSLParser.resyncLine
  cases hf : (List.range 3).find? (fun offset =>
      match lines.get? (sl + offset) with
      | some line_text =>
        hasSub name line_text &&
          ((hasSub (lc "Процедура") line_text || hasSub (lc "Функция") line_text)
            && hasSub name line_text)
      | none => false) with
  | none => exact h
  | some offset =>
    have hp := List.find?_some hf
    cases hg : lines.get? (sl + offset) with
    | none => rw [hg] at hp; cases hp
    | some line_text =>
      rcases List.get?_eq_some.mp hg with ⟨hlt, _⟩
      exact hlt

theorem findEndLoop_bounds :
    ∀ (fuel : Nat) (lines : List (List Char)) (kw : List Char) (i : Nat) (d : Int) (e : Nat),
      BSLParser.findEndLoop lines kw fuel i d = some e →
      i ≤ e ∧ e < lines.length := by
  intro fuel
  induction fuel with
  | zero =>
    intro lines kw i d e h
    cases h
  | succ n ih =>
    intro lines kw i d e h
    by_cases hi : i < lines.length
    · unfold BSLParser.findEndLoop at h
      rw [dif_pos hi] at h
      simp only at h
      repeat' split at h
      all_goals first
        | (cases h; exact ⟨Nat.le_refl i, hi⟩)
        | (rcases ih lines kw (i + 1) _ e h with ⟨h1, h2⟩
           exact ⟨by omega, h2⟩)
    · unfold BSLParser.findEndLoop at h
      rw [dif_neg hi] at h
      cases h

theorem find_method_end_bounds (source : List Char) (sl : Nat) (isproc : Bool) (e : Nat)
    (h : BSLParser._find_method_end source sl isproc = some e) :
    sl < e ∧ e < (splitOnCh '\n' source).length := by
  unfold BSLParser._find_method_end at h
  rcases findEndLoop_bounds ((splitOnCh '\n' source).length + 1) (splitOnCh '\n' source)
      _ (sl + 1) 1 e h with ⟨h1, h2⟩
  exact ⟨by omega, h2⟩

theorem parse_method_from_match_props (source : List Char) (ms : Nat) (nm : List Char)
    (isproc : Bool) (m : BSLMethod)
    (h : BSLParser._parse_method_from_match source (splitOnCh '\n' source) ms nm isproc
        = some m) :
    m.line < (splitOnCh '\n' source).length
    ∧ m.line ≤ m.endline
    ∧ m.endline < (splitOnCh '\n' source).length
    ∧ m.isproc = isproc
    ∧ BSLParser._find_method_end source m.line m.isproc = some m.endline := by
  unfold BSLParser._parse_method_from_match at h
  simp only at h
  split at h
  · cases h
  · next e hfe =>
    cases h
    have hsl : BSLParser.resyncLine (splitOnCh '\n' source) nm
        (countCh '\n' (source.take ms)) < (splitOnCh '\n' source).length := by
      apply resyncLine_lt
      have h1 := countCh_take_le '\n' source ms
      have h2 := length_splitOnCh '\n' source
      omega
    rcases find_method_end_bounds source _ isproc e hfe with ⟨h3, h4⟩
    exact ⟨hsl, Nat.le_of_lt h3, h4, rfl, hfe⟩

theorem mem_insertByLine (m x : BSLMethod) :
    ∀ l, m ∈ BSLParser.insertByLine x l ↔ m = x ∨ m ∈ l := by
  intro l
  induction l with
  | nil => simp [BSLParser.insertByLine]
  | cons y ys ih =>
    by_cases hlt : x.line < y.line
    · simp [BSLParser.insertByLine, hlt]
    · simp only [BSLParser.insertByLine, if_neg hlt, List.mem_cons, ih]
      tauto

theorem mem_sortByLine (m : BSLMethod) :
    ∀ l, m ∈ BSLParser.sortByLine l ↔ m ∈ l := by
  have haux : ∀ (l acc : List BSLMethod),
      m ∈ l.foldl (fun acc m' => BSLParser.insertByLine m' acc) acc
        ↔ m ∈ acc ∨ m ∈ l := by
    intro l
    induction l with
    | nil => simp
    | cons x xs ih =>
      intro acc
      simp only [List.foldl_cons, ih, mem_insertByLine, List.mem_cons]
      tauto
  intro l
  unfold BSLParser.sortByLine
  simp [haux l []]

theorem parse_methods_elim (source : List Char) (m : BSLMethod)
    (h : m ∈ BSLParser._parse_methods source (splitOnCh '\n' source)) :
    ∃ ms nm isproc,
      BSLParser._parse_method_from_match source (splitOnCh '\n' source) ms nm isproc
        = some m := by
  unfold BSLParser._parse_methods at h
  rw [mem_sortByLine] at h
  rcases List.mem_append.mp h with h1 | h1
  · rcases List.mem_filterMap.mp h1 with ⟨mt, _, heq⟩
    exact ⟨mt.1, mt.2.1, true, heq⟩
  · rcases List.mem_filterMap.mp h1 with ⟨mt, _, heq⟩
    exact ⟨mt.1, mt.2.1, false, heq⟩

/-- C4: every method of a `ParseResult` has `start line ≤ end line`, both
valid 0-based indices into the source's line list, and its end line is the
one found by `_find_method_end` — the scan that matches the closing keyword
at nesting depth 0 relative to the opening; a match whose end is never
found yields `none` there and is discarded by `_parse_method_from_match`
rather than returned (so every returned method carries a found end). -/
theorem C4_method_bounds (source : List Char) (m : BSLMethod)
    (h : m ∈ (BSLParser.parse source).methods) :
    m.line ≤ m.endline
    ∧ m.line < (splitOnCh '\n' source).length
    ∧ m.endline < (splitOnCh '\n' source).length
    ∧ BSLParser._find_method_end source m.line m.isproc = some m.endline := by
  unfold BSLParser.parse at h
  simp only at h
  rcases List.mem_map.mp h with ⟨m0, hm0, heq⟩
  rcases parse_methods_elim source m0 hm0 with ⟨ms, nm, isproc, hpm⟩
  rcases parse_method_from_match_props source ms nm isproc m0 hpm with
    ⟨h1, h2, h3, h4, h5⟩
  subst heq
  exact ⟨h2, h1, h3, h5⟩

/-- C4 witness: the bounds theorem applied to the one method of a concrete
two-line source. -/
theorem C4_witness :
    (⟨lc "Тест", 0, 1, true, false, [], [], [], []⟩ : BSLMethod).line
        ≤ (⟨lc "Тест", 0, 1, true, false, [], [], [], []⟩ : BSLMethod).endline
    ∧ (⟨lc "Тест", 0, 1, true, false, [], [], [], []⟩ : BSLMethod).line
        < (splitOnCh '\n' (lc "Процедура Тест()\nКонецПроцедуры")).length
    ∧ (⟨lc "Тест", 0, 1, true, false, [], [], [], []⟩ : BSLMethod).endline
        < (splitOnCh '\n' (lc "Процедура Тест()\nКонецПроцедуры")).length
    ∧ BSLParser._find_method_end (lc "Процедура Тест()\nКонецПроцедуры")
        (⟨lc "Тест", 0, 1, true, false, [], [], [], []⟩ : BSLMethod).line
        (⟨lc "Тест", 0, 1, true, false, [], [], [], []⟩ : BSLMethod).isproc
      = some (⟨lc "Тест", 0, 1, true, false, [], [], [], []⟩ : BSLMethod).endline :=
  C4_method_bounds (lc "Процедура Тест()\nКонецПроцедуры")
    ⟨lc "Тест", 0, 1, true, false, [], [], [], []⟩ (by decide)

/-! ## C10: case sensitivity of the module-variable export flag -/

theorem parse_module_vars_origin (source : List Char) :
    ∀ (ms : List (Nat × List Char × Nat)) (acc : List (List Char × BSLModuleVar))
      (name : List Char) (v : BSLModuleVar),
      alistLookup (ms.foldl (fun vars_dict m =>
          alistSet vars_dict m.2.1
            (BSLParser.moduleVarOf source (splitOnCh '\n' source) m)) acc) name
        = some v →
      (∃ m ∈ ms, m.2.1 = name
          ∧ v = BSLParser.moduleVarOf source (splitOnCh '\n' source) m)
        ∨ alistLookup acc name = some v := by
  intro ms
  induction ms with
  | nil => exact fun acc name v h => Or.inr h
  | cons m rest ih =>
    intro acc name v h
    rcases ih _ name v h with hrest | hacc
    · rcases hrest with ⟨m', hm', he1, he2⟩
      exact Or.inl ⟨m', List.mem_cons_of_mem m hm', he1, he2⟩
    · by_cases hk : name = m.2.1
      · subst hk
        rw [alistLookup_set_self] at hacc
        cases hacc
        exact Or.inl ⟨m, List.mem_cons_self m rest, rfl, rfl⟩
      · rw [alistLookup_set_ne _ _ _ _ hk] at hacc
        exact Or.inr hacc

/-- C10: a parsed module variable's export flag is true exactly when the
text matched by `MODULE_VAR_PATTERN` contains `Экспорт` or `экспорт` as a
case-sensitive substring — so `Перем Икс ЭКСПОРТ;`, matched by the
case-insensitive pattern, is recorded with `is_export = false` — whereas a
method declared with `ЭКСПОРТ` gets `is_export = true`, because the method
flag comes from the case-insensitive search `EXPORT_PATTERN.search`. -/
theorem C10_export_flag_case_sensitivity :
    (∀ (source name : List Char) (v : BSLModuleVar),
        alistLookup (BSLParser.parse source).module_vars name = some v →
        ∃ m, m ∈ finditerMatches BSLParser.matchVarAt true source ∧ m.2.1 = name
          ∧ v.is_export = (hasSub (lc "Экспорт") (pySlice source m.1 m.2.2)
              || hasSub (lc "экспорт") (pySlice source m.1 m.2.2)))
    ∧ alistLookup (BSLParser.parse (lc "Перем Икс ЭКСПОРТ;")).module_vars (lc "Икс")
        = some ⟨lc "Икс", false, []⟩
    ∧ (BSLParser.parse (lc "Процедура Тест() ЭКСПОРТ\nКонецПроцедуры")).methods.map
        (fun m => (m.name, m.is_export)) = [(lc "Тест", true)] := by
  refine ⟨?_, by decide, by decide⟩
  intro source name v h
  have h' : alistLookup (BSLParser._parse_module_vars source (splitOnCh '\n' source))
      name = some v := h
  unfold BSLParser._parse_module_vars at h'
  rcases parse_module_vars_origin source _ [] name v h' with ⟨m, hm, he1, he2⟩ | habs
  · refine ⟨m, hm, he1, ?_⟩
    rw [he2]
    rfl
  · cases habs

/-- C10 witness: the general clause applied to the concrete source
`Перем Икс ЭКСПОРТ;` and its parsed variable. -/
theorem C10_witness :
    ∃ m, m ∈ finditerMatches BSLParser.matchVarAt true (lc "Перем Икс ЭКСПОРТ;")
      ∧ m.2.1 = lc "Икс"
      ∧ (⟨lc "Икс", false, []⟩ : BSLModuleVar).is_export
          = (hasSub (lc "Экспорт") (pySlice (lc "Перем Икс ЭКСПОРТ;") m.1 m.2.2)
            || hasSub (lc "экспорт") (pySlice (lc "Перем Икс ЭКСПОРТ;") m.1 m.2.2)) :=
  C10_export_flag_case_sensitivity.1 (lc "Перем Икс ЭКСПОРТ;") (lc "Икс")
    ⟨lc "Икс", false, []⟩ (by decide)

/-! ## C6: module-name derivation from path segments -/

theorem splitOnCh_no_sep (sep : Char) :
    ∀ (p : List Char), sep ∉ p → splitOnCh sep p = [p] := by
  intro p
  induction p with
  | nil => intro _; rfl
  | cons c cs ih =>
    intro h
    have hc : ¬ c = sep := fun he => h (he ▸ List.mem_cons_self c cs)
    have hcs : sep ∉ cs := fun hm => h (List.mem_cons_of_mem c hm)
    simp only [splitOnCh, if_neg hc, ih hcs]

theorem splitOnCh_append_sep (sep : Char) :
    ∀ (p t : List Char), sep ∉ p →
      splitOnCh sep (p ++ sep :: t) = p :: splitOnCh sep t := by
  intro p
  induction p with
  | nil =>
    intro t _
    simp [splitOnCh]
  | cons c cs ih =>
    intro t h
    have hc : ¬ c = sep := fun he => h (he ▸ List.mem_cons_self c cs)
    have hcs : sep ∉ cs := fun hm => h (List.mem_cons_of_mem c hm)
    have ihh : splitOnCh sep (List.append cs (sep :: t)) = cs :: splitOnCh sep t :=
      ih t hcs
    simp only [List.cons_append, splitOnCh, if_neg hc]
    rw [ihh]


theorem splitOnCh_joinParts (sep : Char) :
    ∀ (parts : List (List Char)), parts ≠ [] → (∀ p ∈ parts, sep ∉ p) →
      splitOnCh sep (joinParts sep parts) = parts := by
  intro parts
  induction parts with
  | nil => intro h; exact absurd rfl h
  | cons p rest ih =>
    intro _ hsep
    cases rest with
    | nil =>
      exact splitOnCh_no_sep sep p (hsep p (List.mem_cons_self p []))
    | cons q t =>
      show splitOnCh sep (p ++ sep :: joinParts sep (q :: t)) = p :: q :: t
      rw [splitOnCh_append_sep sep p _ (hsep p (List.mem_cons_self p (q :: t)))]
      rw [ih (by simp) (fun p' hp' => hsep p' (List.mem_cons_of_mem p hp'))]

theorem mem_joinParts (sep : Char) (c : Char) :
    ∀ (parts : List (List Char)), c ∈ joinParts sep parts →
      c = sep ∨ ∃ p ∈ parts, c ∈ p := by
  intro parts
  induction parts with
  | nil => intro h; cases h
  | cons p rest ih =>
    intro h
    cases rest with
    | nil => exact Or.inr ⟨p, List.mem_cons_self p [], h⟩
    | cons q t =>
      rcases List.mem_append.mp h with hp | hrest
      · exact Or.inr ⟨p, List.mem_cons_self p (q :: t), hp⟩
      · rcases List.mem_cons.mp hrest with hc | hj
        · exact Or.inl hc
        · rcases ih hj with hc | ⟨p', hp', hcp⟩
          · exact Or.inl hc
          · exact Or.inr ⟨p', List.mem_cons_of_mem p hp', hcp⟩

theorem drop_length_succ_append (x : Char) (rest : List Char) :
    ∀ (root : List Char), (root ++ x :: rest).drop (root.length + 1) = rest := by
  intro root
  induction root with
  | nil => rfl
  | cons c cs ih => simpa using ih

/-- C6: for a path of more than 3 segments under the project root, the
derived module identifier is the segment after the four-from-the-end one
when that segment is a common-modules container, and otherwise is the
mapped container type joined to that following segment with a dot; a path
of at most 3 segments yields the empty identifier. -/
theorem C6_module_name_derivation (root : List Char) (parts : List (List Char))
    (hroot : endsWithSep root = false) (hne : parts ≠ [])
    (hsep : ∀ p ∈ parts, '/' ∉ p ∧ '\\' ∉ p) :
    (parts.length > 3 →
      BSLServer._get_module_for_path (root ++ '/' :: joinParts '/' parts) root
        = (if (lc "CommonModules").isPrefixOf (parts.getD (parts.length - 4) [])
              || (lc "ОбщиеМодули").isPrefixOf (parts.getD (parts.length - 4) []) then
            parts.getD (parts.length - 3) []
          else
            ((alistLookup BSLServer.type_mapping
                (parts.getD (parts.length - 4) [])).getD
              (parts.getD (parts.length - 4) []))
              ++ lc "." ++ parts.getD (parts.length - 3) []))
    ∧ (parts.length ≤ 3 →
        BSLServer._get_module_for_path (root ++ '/' :: joinParts '/' parts) root = []) := by
  have hmap : (joinParts '/' parts).map (fun c => if c = '\\' then '/' else c)
      = joinParts '/' parts := by
    have hid : ∀ c ∈ joinParts '/' parts,
        (fun c => if c = '\\' then '/' else c) c = id c := by
      intro c hc
      rcases mem_joinParts '/' c parts hc with hc' | ⟨p, hp, hcp⟩
      · simp [hc']
      · have : c ≠ '\\' := fun he => (hsep p hp).2 (he ▸ hcp)
        simp [this]
    rw [List.map_congr_left hid, List.map_id]
  have hsplit : splitOnCh '/' (joinParts '/' parts) = parts :=
    splitOnCh_joinParts '/' parts hne (fun p hp => (hsep p hp).1)
  have hdrop : (root ++ '/' :: joinParts '/' parts).drop (root.length + 1)
      = joinParts '/' parts := drop_length_succ_append '/' _ root
  constructor
  · intro hlen
    unfold BSLServer._get_module_for_path
    rw [hroot]
    simp only [Bool.false_eq_true, if_false, hdrop, hmap, hsplit]
    rw [if_pos hlen]
  · intro hlen
    unfold BSLServer._get_module_for_path
    rw [hroot]
    simp only [Bool.false_eq_true, if_false, hdrop, hmap, hsplit]
    rw [if_neg (by omega)]

/-- C6 witness: the two container scenarios of the claim evaluated on
concrete paths under the root `root`. -/
theorem C6_witness :
    BSLServer._get_module_for_path
        (lc "root" ++ '/' :: joinParts '/'
          [lc "CommonModules", lc "ИмяМодуля", lc "Ext", lc "Module.bsl"]) (lc "root")
      = lc "ИмяМодуля"
    ∧ BSLServer._get_module_for_path
        (lc "root" ++ '/' :: joinParts '/'
          [lc "Documents", lc "ИмяДокумента", lc "Ext", lc "Module.bsl"]) (lc "root")
      = lc "Документы.ИмяДокумента" :=
  ⟨((C6_module_name_derivation (lc "root")
      [lc "CommonModules", lc "ИмяМодуля", lc "Ext", lc "Module.bsl"]
      (by decide) (by decide) (by decide)).1 (by decide)).trans (by decide),
   ((C6_module_name_derivation (lc "root")
      [lc "Documents", lc "ИмяДокумента", lc "Ext", lc "Module.bsl"]
      (by decide) (by decide) (by decide)).1 (by decide)).trans (by decide)⟩

/-! ## C1: wholesale per-file replacement on re-indexing -/

theorem add_methods_batch_fields (L : List (BSLMethod × List Char × List Char)) :
    ∀ c : BSLCache,
      (c.add_methods_batch L).methods
          = c.methods ++ L.map (fun t => (⟨t.1, t.2.1, t.2.2⟩ : BSLMethodInfo))
      ∧ (c.add_methods_batch L).module_vars = c.module_vars
      ∧ (c.add_methods_batch L).calls = c.calls
      ∧ (c.add_methods_batch L).modules = c.modules := by
  induction L with
  | nil => intro c; simp [BSLCache.add_methods_batch]
  | cons t rest ih =>
    intro c
    have h := ih (c.add_method t.1 t.2.1 t.2.2)
    show (BSLCache.add_methods_batch _ rest).methods = _
      ∧ (BSLCache.add_methods_batch _ rest).module_vars = _
      ∧ (BSLCache.add_methods_batch _ rest).calls = _
      ∧ (BSLCache.add_methods_batch _ rest).modules = _
    rcases h with ⟨h1, h2, h3, h4⟩
    refine ⟨?_, h2, h3, h4⟩
    rw [h1]
    show (c.methods ++ [(⟨t.1, t.2.1, t.2.2⟩ : BSLMethodInfo)]) ++ _ = _
    simp

theorem add_module_vars_batch_fields (L : List (BSLModuleVar × List Char)) :
    ∀ c : BSLCache,
      (c.add_module_vars_batch L).methods = c.methods
      ∧ (c.add_module_vars_batch L).calls = c.calls
      ∧ (c.add_module_vars_batch L).modules = c.modules
      ∧ (c.add_module_vars_batch L).method_name_index = c.method_name_index := by
  induction L with
  | nil => intro c; exact ⟨rfl, rfl, rfl, rfl⟩
  | cons t rest ih =>
    intro c
    exact ih (c.add_module_var t.1 t.2)

theorem add_calls_batch_fields
    (L : List (BSLCallPosition × List Char × List Char × List Char)) :
    ∀ c : BSLCache,
      (c.add_calls_batch L).methods = c.methods
      ∧ (c.add_calls_batch L).module_vars = c.module_vars
      ∧ (c.add_calls_batch L).modules = c.modules := by
  induction L with
  | nil => intro c; exact ⟨rfl, rfl, rfl⟩
  | cons t rest ih =>
    intro c
    exact ih (c.add_call t.1 t.2.1 t.2.2.1 t.2.2.2)

theorem add_module_vars_batch_lookup_some (f : List Char)
    (L : List (BSLModuleVar × List Char)) :
    ∀ (c : BSLCache) (acc : List BSLModuleVar),
      alistLookup c.module_vars f = some acc → (∀ t ∈ L, t.2 = f) →
      alistLookup (c.add_module_vars_batch L).module_vars f
        = some (acc ++ L.map (fun t => t.1)) := by
  induction L with
  | nil =>
    intro c acc hl _
    simpa [BSLCache.add_module_vars_batch] using hl
  | cons t rest ih =>
    intro c acc hl hall
    have htf : t.2 = f := hall t (List.mem_cons_self t rest)
    have hstep : alistLookup (c.add_module_var t.1 t.2).module_vars f
        = some (acc ++ [t.1]) := by
      show alistLookup (alistAppend c.module_vars t.2 t.1) f = _
      rw [htf, alistAppend_lookup_self]
      unfold alistLookupD
      rw [hl, Option.getD_some]
    have := ih (c.add_module_var t.1 t.2) (acc ++ [t.1]) hstep
      (fun t' ht' => hall t' (List.mem_cons_of_mem t ht'))
    show alistLookup (BSLCache.add_module_vars_batch _ rest).module_vars f = _
    rw [this]
    simp

theorem add_module_vars_batch_lookup_of_none (f : List Char)
    (L : List (BSLModuleVar × List Char)) (c : BSLCache)
    (hnone : alistLookup c.module_vars f = none) (hall : ∀ t ∈ L, t.2 = f) :
    alistLookup (c.add_module_vars_batch L).module_vars f
      = match L with
        | [] => none
        | _ :: _ => some (L.map (fun t => t.1)) := by
  cases L with
  | nil => simpa [BSLCache.add_module_vars_batch] using hnone
  | cons t rest =>
    have htf : t.2 = f := hall t (List.mem_cons_self t rest)
    have hstep : alistLookup (c.add_module_var t.1 t.2).module_vars f
        = some ([] ++ [t.1]) := by
      show alistLookup (alistAppend c.module_vars t.2 t.1) f = _
      rw [htf, alistAppend_lookup_self]
      unfold alistLookupD
      rw [hnone]
      rfl
    have := add_module_vars_batch_lookup_some f rest (c.add_module_var t.1 t.2)
      ([] ++ [t.1]) hstep (fun t' ht' => hall t' (List.mem_cons_of_mem t ht'))
    show alistLookup (BSLCache.add_module_vars_batch _ rest).module_vars f = _
    rw [this]
    simp

theorem add_calls_batch_lookupD (k : List Char)
    (L : List (BSLCallPosition × List Char × List Char × List Char)) :
    ∀ c : BSLCache,
      alistLookupD (c.add_calls_batch L).calls k []
        = alistLookupD c.calls k []
          ++ L.filterMap (fun t => if t.1.call = k then some (mkCallInfoOf t) else none) := by
  induction L with
  | nil => intro c; simp [BSLCache.add_calls_batch]
  | cons t rest ih =>
    intro c
    have hstep := ih (c.add_call t.1 t.2.1 t.2.2.1 t.2.2.2)
    show alistLookupD (BSLCache.add_calls_batch _ rest).calls k [] = _
    rw [hstep]
    have hcalls : (c.add_call t.1 t.2.1 t.2.2.1 t.2.2.2).calls
        = alistAppend c.calls t.1.call (mkCallInfoOf t) := rfl
    rw [hcalls]
    by_cases hk : t.1.call = k
    · subst hk
      have h1 : alistLookupD (alistAppend c.calls t.1.call (mkCallInfoOf t)) t.1.call []
          = alistLookupD c.calls t.1.call [] ++ [mkCallInfoOf t] := by
        unfold alistLookupD
        rw [alistAppend_lookup_self]
        rfl
      rw [h1, List.filterMap_cons]
      simp
    · have h1 : alistLookupD (alistAppend c.calls t.1.call (mkCallInfoOf t)) k []
          = alistLookupD c.calls k [] := by
        unfold alistLookupD
        rw [alistAppend_lookup_ne _ _ _ _ (fun he => hk he.symm)]
      rw [h1, List.filterMap_cons]
      simp only [if_neg hk]

/-- Filtering the mapped call records of one per-method (or global) call
list by callee name agrees with the bucket contributions computed by
`add_calls_batch`. -/
theorem call_list_bucket (f module mname k : List Char) :
    ∀ calls : List BSLCallPosition,
      (calls.map (fun call => (call, f, mname, module))).filterMap
          (fun t => if t.1.call = k then some (mkCallInfoOf t) else none)
        = (calls.map (fun call => mkCallInfoOf (call, f, mname, module))).filter
            (fun ci => ci.call = k) := by
  intro calls
  induction calls with
  | nil => rfl
  | cons call rest ih =>
    simp only [List.map_cons, List.filterMap_cons, List.filter_cons]
    by_cases hk : call.call = k
    · have hd : (decide ((mkCallInfoOf (call, f, mname, module)).call = k)) = true :=
        decide_eq_true hk
      simp only [if_pos hk, hd, if_true, ih]
    · have hd : (decide ((mkCallInfoOf (call, f, mname, module)).call = k)) = false :=
        decide_eq_false hk
      simp only [if_neg hk, hd, Bool.false_eq_true, if_false, ih]

theorem convert_local_cache (st : BSLServer.ServerState)
    (rel abs content hash : List Char) (methods : List BSLMethod) :
    (BSLServer._convert_single_file_to_document_symbols st rel abs content hash
      methods).local_cache = st.local_cache := by
  unfold BSLServer._convert_single_file_to_document_symbols
  split <;> rfl

theorem convert_modules_etc (st : BSLServer.ServerState)
    (rel abs content hash : List Char) (methods : List BSLMethod) :
    (BSLServer._convert_single_file_to_document_symbols st rel abs content hash
      methods).file_content_cache = st.file_content_cache := by
  unfold BSLServer._convert_single_file_to_document_symbols
  split <;> rfl

theorem convert_doc_lookup (st : BSLServer.ServerState)
    (rel abs content hash : List Char) (methods : List BSLMethod) :
    alistLookup (BSLServer._convert_single_file_to_document_symbols st rel abs content
        hash methods).document_symbols_cache rel
      = some (hash, methods.map
          (BSLServer.methodToSymbol abs rel content (splitOnCh '\n' content))) := by
  unfold BSLServer._convert_single_file_to_document_symbols
  split
  · next hemp =>
    show alistLookup (alistSet st.document_symbols_cache rel (hash, [])) rel = _
    rw [alistLookup_set_self, List.isEmpty_iff.mp hemp]
    rfl
  · show alistLookup (alistSet st.document_symbols_cache rel _) rel = _
    rw [alistLookup_set_self]

theorem method_calls_bucket (f module k : List Char) :
    ∀ methods : List BSLMethod,
      (methods.flatMap (fun m =>
          m.calls_position.map (fun call => (call, f, m.name, module)))).filterMap
          (fun t => if t.1.call = k then some (mkCallInfoOf t) else none)
        = (methods.flatMap (fun m =>
            m.calls_position.map (fun call => mkCallInfoOf (call, f, m.name, module)))).filter
            (fun ci => ci.call = k) := by
  intro methods
  induction methods with
  | nil => rfl
  | cons m rest ih =>
    show ((m.calls_position.map (fun call => (call, f, m.name, module)))
          ++ rest.flatMap (fun m =>
            m.calls_position.map (fun call => (call, f, m.name, module)))).filterMap _
        = ((m.calls_position.map (fun call => mkCallInfoOf (call, f, m.name, module)))
          ++ rest.flatMap (fun m =>
            m.calls_position.map (fun call => mkCallInfoOf (call, f, m.name, module)))).filter _
    rw [List.filterMap_append, List.filter_append, ih, call_list_bucket f module m.name k]

theorem guarded_batch_methods (c : BSLCache) (b : Bool)
    (L : List (BSLMethod × List Char × List Char)) (hL : b = false → L = []) :
    (if b then c.add_methods_batch L else c).methods
        = c.methods ++ L.map (fun t => (⟨t.1, t.2.1, t.2.2⟩ : BSLMethodInfo))
    ∧ (if b then c.add_methods_batch L else c).module_vars = c.module_vars
    ∧ (if b then c.add_methods_batch L else c).calls = c.calls
    ∧ (if b then c.add_methods_batch L else c).modules = c.modules := by
  cases b with
  | true =>
    simp only [if_true]
    exact add_methods_batch_fields L c
  | false =>
    have h0 : L = [] := hL rfl
    subst h0
    refine ⟨?_, ?_, ?_, ?_⟩ <;> simp

theorem guarded_batch_vars (c : BSLCache) (b : Bool)
    (L : List (BSLModuleVar × List Char)) (f : List Char)
    (hL : b = false → L = []) (hLne : b = true → L ≠ [])
    (hall : ∀ t ∈ L, t.2 = f) (hnone : alistLookup c.module_vars f = none) :
    (if b then c.add_module_vars_batch L else c).methods = c.methods
    ∧ (if b then c.add_module_vars_batch L else c).calls = c.calls
    ∧ (if b then c.add_module_vars_batch L else c).modules = c.modules
    ∧ alistLookup (if b then c.add_module_vars_batch L else c).module_vars f
        = (if L.isEmpty then none else some (L.map (fun t => t.1))) := by
  cases b with
  | true =>
    simp only [if_true]
    rcases add_module_vars_batch_fields L c with ⟨h1, h2, h3, _⟩
    refine ⟨h1, h2, h3, ?_⟩
    rw [add_module_vars_batch_lookup_of_none f L c hnone hall]
    cases L with
    | nil => exact absurd rfl (hLne rfl)
    | cons t rest => rfl
  | false =>
    have h0 : L = [] := hL rfl
    subst h0
    refine ⟨?_, ?_, ?_, ?_⟩ <;> simp [hnone]

theorem guarded_batch_calls (c : BSLCache) (b : Bool)
    (L : List (BSLCallPosition × List Char × List Char × List Char)) (hL : b = false → L = []) :
    (if b then c.add_calls_batch L else c).methods = c.methods
    ∧ (if b then c.add_calls_batch L else c).module_vars = c.module_vars
    ∧ (if b then c.add_calls_batch L else c).modules = c.modules
    ∧ ∀ k, alistLookupD (if b then c.add_calls_batch L else c).calls k []
        = alistLookupD c.calls k []
          ++ L.filterMap (fun t => if t.1.call = k then some (mkCallInfoOf t) else none) := by
  cases b with
  | true =>
    simp only [if_true]
    rcases add_calls_batch_fields L c with ⟨h1, h2, h3⟩
    exact ⟨h1, h2, h3, fun k => add_calls_batch_lookupD k L c⟩
  | false =>
    have h0 : L = [] := hL rfl
    subst h0
    refine ⟨?_, ?_, ?_, ?_⟩ <;> simp

theorem filter_nil_of_all_false {α : Type} (p : α → Bool) (l : List α)
    (h : ∀ a ∈ l, p a = false) : l.filter p = [] :=
  List.filter_eq_nil_iff.mpr (fun a ha => by rw [h a ha]; exact Bool.false_ne_true)

/-- C1: after an edit, `_invalidate_file_cache` leaves, for the re-indexed
file, exactly the data of the new parse: its cached method entries, its
module-variable collection, its call records in every callee bucket and its
document-symbol projection all equal what the fresh parse of the new
content produces, and nothing of the earlier parse survives (module
metadata is not produced by this path at all, so the file owns none).  For
blank new content the re-parse is skipped and the file simply owns no data
— which is also what parsing blank text yields. -/
theorem C1_reindex_replaces_file_wholesale
    (fs : List Char → Option (List Char)) (root : List Char)
    (st : BSLServer.ServerState) (f src : List Char)
    (hread : fs (osPathJoin root f) = some src) :
    ((BSLServer._invalidate_file_cache fs root st f).local_cache.methods.filter
        (fun mi => mi.filename = f)
      = if (stripWs (normalizeNewlines src)).isEmpty then []
        else (BSLParser.parse (normalizeNewlines src)).methods.map
          (fun m => ⟨m, f, BSLServer._get_module_for_path (osPathJoin root f) root⟩))
    ∧ (alistLookup
        (BSLServer._invalidate_file_cache fs root st f).local_cache.module_vars f
      = if (stripWs (normalizeNewlines src)).isEmpty then none
        else if (BSLParser.parse (normalizeNewlines src)).module_vars.isEmpty then none
        else some ((BSLParser.parse (normalizeNewlines src)).module_vars.map
          (fun kv => kv.2)))
    ∧ (∀ k, (alistLookupD
          (BSLServer._invalidate_file_cache fs root st f).local_cache.calls k []).filter
          (fun ci => ci.filename = f)
      = if (stripWs (normalizeNewlines src)).isEmpty then []
        else (BSLServer.newCallInfos f
            (BSLServer._get_module_for_path (osPathJoin root f) root)
            (BSLParser.parse (normalizeNewlines src))).filter (fun ci => ci.call = k))
    ∧ ((BSLServer._invalidate_file_cache fs root st f).local_cache.modules.filter
        (fun mi => mi.filename = f) = [])
    ∧ (alistLookup
        (BSLServer._invalidate_file_cache fs root st f).document_symbols_cache f
      = if (stripWs (normalizeNewlines src)).isEmpty then none
        else some (contentHash (normalizeNewlines src),
          (BSLParser.parse (normalizeNewlines src)).methods.map
            (BSLServer.methodToSymbol (osPathJoin root f) f (normalizeNewlines src)
              (splitOnCh '\n' (normalizeNewlines src))))) := by
  by_cases hblank : (stripWs (normalizeNewlines src)).isEmpty
  · have hst' : BSLServer._invalidate_file_cache fs root st f
        = { local_cache := st.local_cache.remove_file_data f,
            document_symbols_cache := alistErase st.document_symbols_cache f,
            raw_document_symbols_cache := alistErase st.raw_document_symbols_cache f,
            file_content_cache := alistErase st.file_content_cache f,
            converted_files := st.converted_files.filter (fun x => x ≠ f) } := by
      unfold BSLServer._invalidate_file_cache BSLServer._parse_file_local
      simp only [hread, alistLookup_erase_self, hblank, if_true,
        Bool.false_eq_true, if_false]
    rw [hst']
    simp only [hblank, if_true]
    refine ⟨?_, ?_, ?_, ?_, ?_⟩
    · exact filter_nil_of_all_false _ _ (fun mi hmi => by
        have := (BSLCache.mem_remove_file_data_methods st.local_cache f mi hmi).2
        simpa using this)
    · show alistLookup (st.local_cache.remove_file_data f).module_vars f = none
      rw [BSLCache.remove_file_data_module_vars]
      exact alistLookup_erase_self _ _
    · intro k
      exact filter_nil_of_all_false _ _ (fun ci hci => by
        have := BSLCache.mem_remove_file_data_calls st.local_cache f k ci hci
        simpa using this)
    · apply filter_nil_of_all_false
      intro mi hmi
      rw [BSLCache.remove_file_data_modules] at hmi
      rcases List.mem_filter.mp hmi with ⟨_, hne⟩
      simpa using hne
    · exact alistLookup_erase_self _ _
  · have hblank' : (stripWs (normalizeNewlines src)).isEmpty = false := by
      simpa using hblank
    unfold BSLServer._invalidate_file_cache BSLServer._parse_file_local
    simp only [hread, alistLookup_erase_self, hblank', Bool.false_eq_true, if_false]
    generalize hpr : BSLParser.parse (normalizeNewlines src) = pr
    generalize hmd : BSLServer._get_module_for_path (osPathJoin root f) root = md
    generalize hc1g : st.local_cache.remove_file_data f = c1
    have hc1mem : ∀ mi ∈ c1.methods, (decide (mi.filename = f)) = false := by
      intro mi hmi
      rw [← hc1g] at hmi
      have := (BSLCache.mem_remove_file_data_methods st.local_cache f mi hmi).2
      simpa using this
    have hc1vars : alistLookup c1.module_vars f = none := by
      rw [← hc1g, BSLCache.remove_file_data_module_vars]
      exact alistLookup_erase_self _ _
    have hc1calls : ∀ k ci, ci ∈ alistLookupD c1.calls k []
        → (decide (ci.filename = f)) = false := by
      intro k ci hci
      rw [← hc1g] at hci
      have := BSLCache.mem_remove_file_data_calls st.local_cache f k ci hci
      simpa using this
    have hc1mods : ∀ mi ∈ c1.modules, (decide (mi.filename = f)) = false := by
      intro mi hmi
      rw [← hc1g, BSLCache.remove_file_data_modules] at hmi
      rcases List.mem_filter.mp hmi with ⟨_, hne⟩
      simpa using hne
    set L1 := pr.methods.map (fun method => (method, f, md)) with hL1
    set cache1 := if (!pr.methods.isEmpty) = true
        then c1.add_methods_batch L1 else c1 with hcache1
    set L2 := pr.module_vars.map (fun kv => (kv.2, f)) with hL2
    set cache2 := if (!pr.module_vars.isEmpty) = true
        then cache1.add_module_vars_batch L2 else cache1 with hcache2
    set L3 := pr.global_calls.map
        (fun call => (call, f, lc "GlobalModuleText", md)) with hL3
    set cache3 := if (!pr.global_calls.isEmpty) = true
        then cache2.add_calls_batch L3 else cache2 with hcache3
    set L4 := pr.methods.flatMap (fun method =>
        method.calls_position.map (fun call => (call, f, method.name, md))) with hL4
    set cache4 := if (!L4.isEmpty) = true
        then cache3.add_calls_batch L4 else cache3 with hcache4
    have hg1 := guarded_batch_methods c1 (!pr.methods.isEmpty) L1 (fun hb => by
      have hemp : pr.methods.isEmpty = true := by
        cases hx : pr.methods.isEmpty
        · rw [hx] at hb; cases hb
        · rfl
      rw [hL1, List.isEmpty_iff.mp hemp]
      rfl)
    rw [← hcache1] at hg1
    have hg2 := guarded_batch_vars cache1 (!pr.module_vars.isEmpty) L2 f
      (fun hb => by
        have hemp : pr.module_vars.isEmpty = true := by
          cases hx : pr.module_vars.isEmpty
          · rw [hx] at hb; cases hb
          · rfl
        rw [hL2, List.isEmpty_iff.mp hemp]
        rfl)
      (fun hb => by
        have hemp : pr.module_vars.isEmpty = false := by
          cases hx : pr.module_vars.isEmpty
          · rfl
          · rw [hx] at hb; cases hb
        rw [hL2]
        intro hmapnil
        rw [List.map_eq_nil_iff.mp hmapnil] at hemp
        cases hemp)
      (by
        intro t ht
        rw [hL2] at ht
        rcases List.mem_map.mp ht with ⟨kv, _, hkv⟩
        rw [← hkv])
      (by rw [hg1.2.1]; exact hc1vars)
    rw [← hcache2] at hg2
    have hg3 := guarded_batch_calls cache2 (!pr.global_calls.isEmpty) L3 (fun hb => by
      have hemp : pr.global_calls.isEmpty = true := by
        cases hx : pr.global_calls.isEmpty
        · rw [hx] at hb; cases hb
        · rfl
      rw [hL3, List.isEmpty_iff.mp hemp]
      rfl)
    rw [← hcache3] at hg3
    have hg4 := guarded_batch_calls cache3 (!L4.isEmpty) L4 (fun hb => by
      cases hx : L4.isEmpty
      · rw [hx] at hb; cases hb
      · exact List.isEmpty_iff.mp hx)
    rw [← hcache4] at hg4
    refine ⟨?_, ?_, ?_, ?_, ?_⟩
    · rw [convert_local_cache]
      show cache4.methods.filter (fun mi => decide (mi.filename = f)) = _
      rw [hg4.1, hg3.1, hg2.1, hg1.1, List.filter_append,
        filter_nil_of_all_false _ _ hc1mem]
      rw [List.filter_eq_self.mpr (by
        intro mi hmi
        rcases List.mem_map.mp hmi with ⟨t, htL, hteq⟩
        rw [hL1] at htL
        rcases List.mem_map.mp htL with ⟨m, _, hmeq⟩
        rw [← hteq, ← hmeq]
        simp)]
      rw [hL1, List.map_map]
      rfl
    · rw [convert_local_cache]
      show alistLookup cache4.module_vars f = _
      rw [hg4.2.1, hg3.2.1, hg2.2.2.2]
      rw [hL2]
      have hie : (pr.module_vars.map (fun kv => (kv.2, f))).isEmpty
          = pr.module_vars.isEmpty := by
        cases pr.module_vars <;> rfl
      rw [hie, List.map_map]
      rfl
    · intro k
      rw [convert_local_cache]
      show (alistLookupD cache4.calls k []).filter (fun ci => decide (ci.filename = f)) = _
      rw [hg4.2.2.2 k, hg3.2.2.2 k, hg2.2.1, hg1.2.2.1]
      rw [List.filter_append, List.filter_append,
        filter_nil_of_all_false _ _ (hc1calls k)]
      have hall3 : ∀ ci ∈ L3.filterMap (fun t =>
          if t.1.call = k then some (mkCallInfoOf t) else none),
          (decide (ci.filename = f)) = true := by
        intro ci hci
        rcases List.mem_filterMap.mp hci with ⟨t, htL, hteq⟩
        rw [hL3] at htL
        rcases List.mem_map.mp htL with ⟨call, _, hceq⟩
        by_cases hk : t.1.call = k
        · rw [if_pos hk] at hteq
          cases hteq
          rw [← hceq]
          simp [mkCallInfoOf]
        · rw [if_neg hk] at hteq
          cases hteq
      have hall4 : ∀ ci ∈ L4.filterMap (fun t =>
          if t.1.call = k then some (mkCallInfoOf t) else none),
          (decide (ci.filename = f)) = true := by
        intro ci hci
        rcases List.mem_filterMap.mp hci with ⟨t, htL, hteq⟩
        rw [hL4] at htL
        rcases List.mem_flatMap.mp htL with ⟨m, _, htm⟩
        rcases List.mem_map.mp htm with ⟨call, _, hceq⟩
        by_cases hk : t.1.call = k
        · rw [if_pos hk] at hteq
          cases hteq
          rw [← hceq]
          simp [mkCallInfoOf]
        · rw [if_neg hk] at hteq
          cases hteq
      rw [List.filter_eq_self.mpr hall3, List.filter_eq_self.mpr hall4]
      show _ = (BSLServer.newCallInfos f md pr).filter (fun ci => decide (ci.call = k))
      unfold BSLServer.newCallInfos
      rw [List.filter_append, hL3, hL4, call_list_bucket f md (lc "GlobalModuleText") k,
        method_calls_bucket f md k]
      simp
    · rw [convert_local_cache]
      show cache4.modules.filter (fun mi => decide (mi.filename = f)) = _
      rw [hg4.2.2.1, hg3.2.2.1, hg2.2.2.1, hg1.2.2.2]
      exact filter_nil_of_all_false _ _ hc1mods
    · exact convert_doc_lookup _ _ _ _ _ _

/-- C1 witness: a concrete file with one stale cached method is re-indexed
and afterwards owns exactly the single method of the new parse. -/
theorem C1_witness :
    ((BSLServer._invalidate_file_cache
        (fun p => if p = lc "root/f.bsl"
          then some (lc "Процедура Тест()\n  Фоо();\nКонецПроцедуры") else none)
        (lc "root")
        { local_cache := BSLCache.init.add_method
            ⟨lc "Старый", 0, 1, true, true, [], [], [], []⟩ (lc "f.bsl") (lc "М"),
          document_symbols_cache := [(lc "f.bsl", (lc "oldhash", []))],
          raw_document_symbols_cache := [], file_content_cache := [],
          converted_files := [lc "f.bsl"] }
        (lc "f.bsl")).local_cache.methods.filter
          (fun mi => mi.filename = lc "f.bsl"))
      = [⟨⟨lc "Тест", 0, 2, true, false, [], [], [],
          [⟨lc "Фоо", 1, 2⟩]⟩, lc "f.bsl", []⟩] :=
  ((C1_reindex_replaces_file_wholesale
      (fun p => if p = lc "root/f.bsl"
        then some (lc "Процедура Тест()\n  Фоо();\nКонецПроцедуры") else none)
      (lc "root")
      { local_cache := BSLCache.init.add_method
          ⟨lc "Старый", 0, 1, true, true, [], [], [], []⟩ (lc "f.bsl") (lc "М"),
        document_symbols_cache := [(lc "f.bsl", (lc "oldhash", []))],
        raw_document_symbols_cache := [], file_content_cache := [],
        converted_files := [lc "f.bsl"] }
      (lc "f.bsl") (lc "Процедура Тест()\n  Фоо();\nКонецПроцедуры")
      (by decide)).1).trans (by decide)
